import Mathlib

/-! The card container and the folded-line decoder of `vcard.cpp` (libvcard)

Shallow embedding of `src/libvcard/vcard.cpp`.  Texts (`QString`, `QByteArray`)
are lists of characters; converting between the two Qt types is taken to be the
identity on well-formed text.  A `vCard` is its `m_properties` list.  The
Property codec (`vCardProperty::toByteArray` / `fromByteArray`) lives in a file
that is not part of the sources at hand: the card-level functions take it as a
parameter, and a concrete codec written after the specification is used where a
statement has to be evaluated on an example.
-/

namespace LibVCard

/-- Text of a `QString` or `QByteArray`, one character per element. -/
abbrev Str := List Char

/-! ## Data model -/

/-- Modelled from the spec: `vCardParam` is declared outside `vcard.cpp`; the
specification gives it as a name/value pair with structural equality. -/
structure vCardParam where
  name : Str
  value : Str
deriving DecidableEq

/-- Modelled from the spec: `vCardProperty` is declared outside `vcard.cpp`; the
specification gives it as a name, an ordered parameter list and an ordered
value list, compared structurally. -/
structure vCardProperty where
  name : Str
  params : List vCardParam
  values : List Str
deriving DecidableEq

/-- Modelled from the spec: the default-constructed `vCardProperty()`, the
empty-name sentinel returned when a lookup finds nothing. -/
def vCardProperty.empty : vCardProperty := ⟨[], [], []⟩

/-- Modelled from the spec: `vCardProperty::isValid`, true iff the name is
non-empty. -/
def vCardProperty.isValid (p : vCardProperty) : Bool := !p.name.isEmpty

/-- Modelled from the spec: the constructor `vCardProperty(name, values)` used by
the aggregate lookup: a property of that name holding the given values and no
parameters. -/
def vCardProperty.ofValues (name : Str) (values : List Str) : vCardProperty :=
  ⟨name, [], values⟩

/-- The class `vCard`: its only member is the ordered list `m_properties`. -/
structure vCard where
  m_properties : List vCardProperty
deriving DecidableEq

/-- The constructor `vCard::vCard()`. -/
def vCard.new : vCard := ⟨[]⟩

/-- Modelled from the spec: the accessor `properties()` without arguments is
declared in the missing header; it hands out the stored list (the copy
constructor reads the whole card through it). -/
def vCard.properties (c : vCard) : List vCardProperty := c.m_properties

/-- Modelled from the spec: `vCard::clear` is declared in the missing header; the
decoder calls it to start the next card from an empty accumulator. -/
def vCard.clear (_c : vCard) : vCard := ⟨[]⟩

/-! ## Mutators -/

/-- The scan of `vCard::addProperty` over `m_properties`: the first element with
the same name and the same parameter list is overwritten in place and the scan
stops; when the scan runs off the end the property is appended. -/
def addPropertyTo (property : vCardProperty) : List vCardProperty → List vCardProperty
  | [] => [property]
  | current :: rest =>
    if current.name = property.name ∧ current.params = property.params then
      property :: rest
    else
      current :: addPropertyTo property rest

/-- `vCard::addProperty`. -/
def vCard.addProperty (c : vCard) (property : vCardProperty) : vCard :=
  ⟨addPropertyTo property c.m_properties⟩

/-- `vCard::addProperties`: `addProperty` for each element, in input order. -/
def vCard.addProperties (c : vCard) (properties : List vCardProperty) : vCard :=
  properties.foldl vCard.addProperty c

/-- The loop `for (int i = m_properties.count(); --i >= 0; )` of
`vCard::removeProperties`; the first argument is the value of `i` before the
decrement, so the body runs at index `i - 1`. -/
def removePropertiesLoop (name : Str) : Nat → List vCardProperty → List vCardProperty
  | 0, m => m
  | i + 1, m =>
    match m.get? i with
    | some current =>
      if current.name = name then removePropertiesLoop name i (m.eraseIdx i)
      else removePropertiesLoop name i m
    | none => removePropertiesLoop name i m

/-- `vCard::removeProperties`. -/
def vCard.removeProperties (c : vCard) (name : Str) : vCard :=
  ⟨removePropertiesLoop name c.m_properties.length c.m_properties⟩

/-! ## Lookups -/

/-- The inner loop of the non-strict branch,
`foreach (vCardParam param, params) if (!current_params.contains(param)) continue;`.
The `continue` resumes this inner loop, so the scan changes nothing and falls
through to the `return` that follows it. -/
def paramScan (params current_params : List vCardParam) : Unit :=
  params.foldl (fun _ param => if current_params.contains param then () else ()) ()

/-- The scan of `vCard::property` over `m_properties`. -/
def propertyIn (name : Str) (params : List vCardParam) (strict : Bool) :
    List vCardProperty → vCardProperty
  | [] => vCardProperty.empty
  | current :: rest =>
    if current.name = name then
      if strict then
        if params ≠ current.params then propertyIn name params strict rest
        else current
      else
        match paramScan params current.params with
        | () => current
    else propertyIn name params strict rest

/-- `vCard::property(name, params, strict)`. -/
def vCard.property (c : vCard) (name : Str) (params : List vCardParam) (strict : Bool) :
    vCardProperty :=
  propertyIn name params strict c.m_properties

/-- `vCard::properties(name)`, the aggregate lookup: the values of every stored
property of that name are appended to `Values` in stored order. -/
def vCard.propertiesByName (c : vCard) (name : Str) : vCardProperty :=
  let Values : List Str :=
    c.m_properties.foldl (fun acc P => if P.name = name then acc ++ P.values else acc) []
  if !Values.isEmpty then vCardProperty.ofValues name Values else vCardProperty.empty

/-- The scan of `vCard::contains(name, params, strict)` over `m_properties`. -/
def containsIn (name : Str) (params : List vCardParam) (strict : Bool) :
    List vCardProperty → Bool
  | [] => false
  | current :: rest =>
    if current.name ≠ name then containsIn name params strict rest
    else if strict then
      if params ≠ current.params then containsIn name params strict rest
      else true
    else
      match paramScan params current.params with
      | () => true

/-- `vCard::contains(name, params, strict)`. -/
def vCard.contains (c : vCard) (name : Str) (params : List vCardParam) (strict : Bool) : Bool :=
  containsIn name params strict c.m_properties

/-- `vCard::contains(property)`: structural membership. -/
def vCard.containsProperty (c : vCard) (property : vCardProperty) : Bool :=
  c.m_properties.contains property

/-- `vCard::isValid`. -/
def vCard.isValid (c : vCard) : Bool :=
  if c.m_properties.isEmpty then false
  else c.m_properties.all (fun prop => prop.isValid)

/-- `vCard::count`. -/
def vCard.count (c : vCard) : Nat := c.m_properties.length

/-! ## Qt text primitives used by the decoder -/

/-- Whitespace in the sense of `QByteArray::simplified`: the C-locale `isspace`
bytes TAB, LF, VT, FF, CR and space. -/
def isSpace (c : Char) : Bool :=
  c = ' ' || c = '\t' || c = '\n' || c = Char.ofNat 11 || c = Char.ofNat 12 || c = '\r'

/-- Worker of `simplified`.  `pending` says that whitespace has been skipped
since the last copied character, `out` that something has been copied already;
a single space is written before the next copied character only when both hold,
so leading and trailing whitespace disappear. -/
def simplifiedAux : Bool → Bool → Str → Str
  | _, _, [] => []
  | pending, out, c :: cs =>
    if isSpace c then simplifiedAux out out cs
    else if pending then ' ' :: c :: simplifiedAux false true cs
    else c :: simplifiedAux false true cs

/-- `QByteArray::simplified`: whitespace removed from both ends and every
internal run of whitespace replaced by one space. -/
def simplified (s : Str) : Str := simplifiedAux false false s

/-- Whether a text can follow a copied character in an output of `simplified`:
every whitespace character is a single space that is followed by a
non-whitespace character.  The flag says that the previous character was such a
space. -/
def simplifiedTail : Bool → Str → Bool
  | afterSpace, [] => !afterSpace
  | afterSpace, c :: cs =>
    if isSpace c then !afterSpace && (c = ' ' && simplifiedTail true cs)
    else simplifiedTail false cs

/-- The shape of the outputs of `simplified`: no whitespace at either end, and
inside only single spaces between non-whitespace characters. -/
def isSimplified : Str → Bool
  | [] => true
  | c :: cs => !isSpace c && simplifiedTail false cs

/-- `QByteArray::startsWith(char)`. -/
def startsWith (s : Str) (c : Char) : Bool :=
  match s with
  | [] => false
  | x :: _ => x = c

/-- `QByteArray::split(char)`: the pieces between occurrences of `sep`; there is
always at least one piece and pieces may be empty. -/
def split (sep : Char) : Str → List Str
  | [] => [[]]
  | c :: cs =>
    if c = sep then [] :: split sep cs
    else
      match split sep cs with
      | [] => [[c]]
      | piece :: pieces => (c :: piece) :: pieces

/-- `QStringList::join(separator)` for a one-character separator. -/
def joinLines (sep : Char) : List Str → Str
  | [] => []
  | [l] => l
  | l :: ls => l ++ sep :: joinLines sep ls

/-! ## Constants of the missing header -/

/-- Modelled from the spec: the macro `VC_BEGIN_TOKEN`, the line `BEGIN:VCARD`. -/
def VC_BEGIN_TOKEN : Str := "BEGIN:VCARD".toList

/-- Modelled from the spec: the macro `VC_END_TOKEN`, the line `END:VCARD`. -/
def VC_END_TOKEN : Str := "END:VCARD".toList

/-- Modelled from the spec: the macro `VC_VERSION`, the name of the version
line (`VERSION:2.1`, `VERSION:3.0`). -/
def VC_VERSION : Str := "VERSION".toList

/-- Modelled from the spec: the enumeration `vCardVersion` of the missing header;
`VC_VER_UNKNOWN` stands for every value other than the two supported ones. -/
inductive vCardVersion where
  | VC_VER_2_1
  | VC_VER_3_0
  | VC_VER_UNKNOWN
deriving DecidableEq

/-- Modelled from the spec: the constructor `vCardProperty(name, value)` used for
the version line: a property of that name holding one value and no parameter. -/
def vCardProperty.ofValue (name : Str) (value : Str) : vCardProperty :=
  ⟨name, [], [value]⟩

/-- The Property codec that `vcard.cpp` calls and does not define.  The byte
`VC_END_LINE_TOKEN`, also from the missing header, is passed to the functions
below as the argument `eol`. -/
structure PropertyCodec where
  /-- The call `property.toByteArray(version)`. -/
  toByteArray : vCardVersion → vCardProperty → Str
  /-- The call `property.toByteArray()`, without a version. -/
  toByteArrayDefault : vCardProperty → Str
  /-- The call `vCardProperty::fromByteArray(line)`. -/
  fromByteArray : Str → List vCardProperty

/-! ## Encoder -/

/-- The lines `vCard::toByteArray` collects once the version line is known. -/
def encodedLines (codec : PropertyCodec) (c : vCard) (version : vCardVersion)
    (line : Str) : List Str :=
  [VC_BEGIN_TOKEN] ++ [line]
    ++ c.properties.map (fun property => codec.toByteArray version property)
    ++ [VC_END_TOKEN]

/-- The `switch (version)` of `vCard::toByteArray`: the version line appended for
a supported version, nothing for any other value (the function then returns an
empty array). -/
def versionLine (codec : PropertyCodec) : vCardVersion → Option Str
  | .VC_VER_2_1 => some (codec.toByteArrayDefault (vCardProperty.ofValue VC_VERSION "2.1".toList))
  | .VC_VER_3_0 => some (codec.toByteArrayDefault (vCardProperty.ofValue VC_VERSION "3.0".toList))
  | .VC_VER_UNKNOWN => none

/-- `vCard::toByteArray(version)`. -/
def vCard.toByteArray (codec : PropertyCodec) (eol : Char) (c : vCard)
    (version : vCardVersion) : Str :=
  match versionLine codec version with
  | some line => joinLines eol (encodedLines codec c version line)
  | none => []

/-! ## Decoder -/

/-- The variables `vcards`, `current` and `started` of `vCard::fromByteArray`. -/
structure CardState where
  vcards : List vCard
  current : vCard
  started : Bool
deriving DecidableEq

/-- The `if / else if / else if` chain run on a completed logical line. -/
def dispatch (codec : PropertyCodec) (s : CardState) (current_line : Str) : CardState :=
  if current_line = VC_BEGIN_TOKEN ∧ s.started = false then
    { s with started := true }
  else if current_line = VC_END_TOKEN ∧ s.started = true then
    { vcards := s.vcards ++ [s.current], current := s.current.clear, started := false }
  else if s.started = true then
    { s with current := s.current.addProperties (codec.fromByteArray current_line) }
  else s

/-- One iteration of the loop over the raw lines: `it` is the raw line, `next`
the one after it (none at the end), the state is the card state together with
`current_line`. -/
def parseStep (codec : PropertyCodec) (s : CardState × Str) (it : Str) (next : Option Str) :
    CardState × Str :=
  let current_line := if !startsWith it ' ' then simplified it else s.2
  match next with
  | some n =>
    if startsWith n ' ' then (s.1, current_line ++ simplified n)
    else (dispatch codec s.1 current_line, [])
  | none => (dispatch codec s.1 current_line, [])

/-- The loop of `vCard::fromByteArray` over the raw lines. -/
def parseLines (codec : PropertyCodec) : CardState × Str → List Str → CardState × Str
  | s, [] => s
  | s, it :: rest => parseLines codec (parseStep codec s it rest.head?) rest

/-- The state in which `vCard::fromByteArray` enters its loop. -/
def initialState : CardState × Str := (⟨[], vCard.new, false⟩, [])

/-- The state in which `vCard::fromByteArray` leaves its loop. -/
def finalState (codec : PropertyCodec) (eol : Char) (data : Str) : CardState × Str :=
  parseLines codec initialState (split eol data)

/-- `vCard::fromByteArray(data)`. -/
def vCard.fromByteArray (codec : PropertyCodec) (eol : Char) (data : Str) : List vCard :=
  (finalState codec eol data).1.vcards

/-- The logical lines the loop of `vCard::fromByteArray` completes, in order:
the same loop with the card state left out, recording `current_line` at each
point where the loop runs the dispatch chain. -/
def logicalLines : Str → List Str → List Str
  | _, [] => []
  | current_line, it :: rest =>
    let current_line := if !startsWith it ' ' then simplified it else current_line
    match rest.head? with
    | some n =>
      if startsWith n ' ' then logicalLines (current_line ++ simplified n) rest
      else current_line :: logicalLines [] rest
    | none => current_line :: logicalLines [] rest

/-- The logical lines of a whole input. -/
def unfold (eol : Char) (data : Str) : List Str := logicalLines [] (split eol data)

/-! ## A Property codec after the specification

`vcardproperty.cpp` is not among the sources.  The following codec follows the
specification of the Property component and serves to evaluate the card-level
functions on examples. -/

/-- Modelled from the spec: the parameter encoder, which is missing from the
sources: `NAME=VALUE`, or the bare `NAME` when the value is empty. -/
def specParamToByteArray (p : vCardParam) : Str :=
  if p.value.isEmpty then p.name else p.name ++ '=' :: p.value

/-- Modelled from the spec: the separator between the values of a property,
missing from the sources: `;` for the structured name and address fields (taken
to be `N` and `ADR`), `,` for every other property. -/
def specValueSeparator (name : Str) : Char :=
  if name = "N".toList ∨ name = "ADR".toList then ';' else ','

/-- Modelled from the spec: `vCardProperty::toByteArray`, missing from the
sources: `NAME[;PARAM=VAL...]:VALUE[,VALUE...]`, the same for both versions. -/
def specPropertyToByteArray (p : vCardProperty) : Str :=
  p.name ++ (p.params.map (fun q => ';' :: specParamToByteArray q)).flatten
    ++ ':' :: joinLines (specValueSeparator p.name) p.values

/-- Modelled from the spec: the cut of a logical line at its first unescaped
occurrence of `sep`, part of the missing Property decoder; an occurrence right
after a backslash counts as escaped.  The flag says that the previous character
was such a backslash. -/
def splitFirst (sep : Char) : Bool → Str → Option (Str × Str)
  | _, [] => none
  | escaped, c :: cs =>
    if c = sep ∧ escaped = false then some ([], cs)
    else
      match splitFirst sep (c = Char.ofNat 92 && !escaped) cs with
      | none => none
      | some (before, after) => some (c :: before, after)

/-- Modelled from the spec: the parameter decoder, missing from the sources: a
token is cut at its first `=` into name and value; without `=` it is a bare
parameter with an empty value. -/
def specParamFromToken (token : Str) : vCardParam :=
  match split '=' token with
  | [] => ⟨token, []⟩
  | [name] => ⟨name, []⟩
  | name :: rest => ⟨name, joinLines '=' rest⟩

/-- Modelled from the spec: `vCardProperty::fromByteArray`, missing from the
sources: the line is cut at its first unescaped `:`; the part before it is split
on `;` into the name and the parameter tokens; the part after it is split into
values on the separator of the encoder.  A line without `:` gives no property. -/
def specPropertyFromByteArray (line : Str) : List vCardProperty :=
  match splitFirst ':' false line with
  | none => []
  | some (head, value) =>
    match split ';' head with
    | [] => []
    | name :: tokens =>
      [⟨name, tokens.map specParamFromToken, split (specValueSeparator name) value⟩]

/-- Modelled from the spec: the missing Property codec as the specification
describes it. -/
def specCodec : PropertyCodec where
  toByteArray := fun _ p => specPropertyToByteArray p
  toByteArrayDefault := specPropertyToByteArray
  fromByteArray := specPropertyFromByteArray

/-! ## Notions used to state the properties -/

/-- The pair a card distinguishes properties by: name and parameter list. -/
def vCardProperty.key (p : vCardProperty) : Str × List vCardParam := (p.name, p.params)

/-- Cards obtained from the empty card by the three mutators. -/
inductive Reachable : vCard → Prop
  | new : Reachable vCard.new
  | addProperty (c : vCard) (p : vCardProperty) : Reachable c → Reachable (c.addProperty p)
  | addProperties (c : vCard) (ps : List vCardProperty) :
      Reachable c → Reachable (c.addProperties ps)
  | removeProperties (c : vCard) (name : Str) : Reachable c → Reachable (c.removeProperties name)

/-- A card state with the cards `v` put in front of its finished cards. -/
def CardState.shift (v : List vCard) (s : CardState) : CardState :=
  { s with vcards := v ++ s.vcards }

/-- Whether the first raw line of an input starts with a space, so that the
decoder would take it for a continuation of what precedes. -/
def firstLineContinues (eol : Char) (data : Str) : Bool :=
  match (split eol data).head? with
  | some line => startsWith line ' '
  | none => false

theorem addPropertyTo_found (p : vCardProperty) :
    ∀ l : List vCardProperty, (∃ q ∈ l, q.name = p.name ∧ q.params = p.params) →
      ∃ i q, l[i]? = some q ∧ (q.name = p.name ∧ q.params = p.params) ∧
        (∀ j r, j < i → l[j]? = some r → ¬ (r.name = p.name ∧ r.params = p.params)) ∧
        addPropertyTo p l = l.set i p := by
  intro l
  induction l with
  | nil => rintro ⟨q, hq, _⟩; cases hq
  | cons cur rest ih =>
    rintro ⟨q, hq, hk⟩
    by_cases hc : cur.name = p.name ∧ cur.params = p.params
    · refine ⟨0, cur, by simp, hc, ?_, ?_⟩
      · intro j r hj; omega
      · simp [addPropertyTo, hc]
    · have hq2 : q ∈ rest := by
        rcases List.mem_cons.1 hq with h | h
        · subst h; exact absurd hk hc
        · exact h
      obtain ⟨i, q2, hi, hk2, hmin, hset⟩ := ih ⟨q, hq2, hk⟩
      refine ⟨i + 1, q2, by simpa using hi, hk2, ?_, ?_⟩
      · intro j r hj hr
        cases j with
        | zero =>
          simp at hr
          subst hr
          exact hc
        | succ j =>
          exact hmin j r (by omega) (by simpa using hr)
      · simp [addPropertyTo, hc, hset]

theorem addPropertyTo_not_found (p : vCardProperty) :
    ∀ l : List vCardProperty, (∀ q ∈ l, ¬ (q.name = p.name ∧ q.params = p.params)) →
      addPropertyTo p l = l ++ [p] := by
  intro l
  induction l with
  | nil => intro _; rfl
  | cons cur rest ih =>
    intro h
    have hc := h cur (List.mem_cons_self _ _)
    have hr := ih (fun q hq => h q (List.mem_cons_of_mem _ hq))
    simp [addPropertyTo, hc, hr]

theorem addPropertyTo_length_found (p : vCardProperty) (l : List vCardProperty)
    (h : ∃ q ∈ l, q.name = p.name ∧ q.params = p.params) :
    (addPropertyTo p l).length = l.length := by
  obtain ⟨i, q, _, _, _, hset⟩ := addPropertyTo_found p l h
  rw [hset, List.length_set]

/-- C2. `addProperty(p)` on a card holding a property with the name and the
parameter list of `p` overwrites the first such property at its index, leaves
every other index and `count()` as they were; on a card holding none it appends
`p` at the end and `count()` grows by one. -/
theorem addProperty_replaces_or_appends (c : vCard) (p : vCardProperty) :
    ((∃ q ∈ c.m_properties, q.name = p.name ∧ q.params = p.params) →
      (c.addProperty p).count = c.count ∧
      ∃ i q, c.m_properties[i]? = some q ∧ (q.name = p.name ∧ q.params = p.params) ∧
        (∀ j r, j < i → c.m_properties[j]? = some r →
          ¬ (r.name = p.name ∧ r.params = p.params)) ∧
        (c.addProperty p).m_properties = c.m_properties.set i p) ∧
    ((¬ ∃ q ∈ c.m_properties, q.name = p.name ∧ q.params = p.params) →
      (c.addProperty p).m_properties = c.m_properties ++ [p] ∧
      (c.addProperty p).count = c.count + 1) := by
  constructor
  · intro h
    exact ⟨addPropertyTo_length_found p _ h, addPropertyTo_found p _ h⟩
  · intro h
    have hn : ∀ q ∈ c.m_properties, ¬ (q.name = p.name ∧ q.params = p.params) :=
      fun q hq hk => h ⟨q, hq, hk⟩
    have e := addPropertyTo_not_found p _ hn
    exact ⟨e, by simp [vCard.count, vCard.addProperty, e]⟩

/-- Both branches of C2 on the card `[TEL;HOME, FN]`: adding a `TEL;HOME`
overwrites index 0, adding a `TEL` without parameter appends. -/
theorem addProperty_replaces_or_appends_witness :
    ((vCard.mk [⟨"TEL".toList, [⟨"TYPE".toList, "HOME".toList⟩], ["1".toList]⟩,
          ⟨"FN".toList, [], ["A".toList]⟩]).addProperty
        ⟨"TEL".toList, [⟨"TYPE".toList, "HOME".toList⟩], ["2".toList]⟩).count = 2 ∧
    ((vCard.mk [⟨"TEL".toList, [⟨"TYPE".toList, "HOME".toList⟩], ["1".toList]⟩,
          ⟨"FN".toList, [], ["A".toList]⟩]).addProperty
        ⟨"TEL".toList, [], ["2".toList]⟩).count = 3 :=
  ⟨((addProperty_replaces_or_appends
        (vCard.mk [⟨"TEL".toList, [⟨"TYPE".toList, "HOME".toList⟩], ["1".toList]⟩,
          ⟨"FN".toList, [], ["A".toList]⟩])
        ⟨"TEL".toList, [⟨"TYPE".toList, "HOME".toList⟩], ["2".toList]⟩).1
      ⟨_, List.mem_cons_self _ _, by decide⟩).1,
   ((addProperty_replaces_or_appends
        (vCard.mk [⟨"TEL".toList, [⟨"TYPE".toList, "HOME".toList⟩], ["1".toList]⟩,
          ⟨"FN".toList, [], ["A".toList]⟩])
        ⟨"TEL".toList, [], ["2".toList]⟩).2 (by decide)).2⟩

/-! ## The invariant of reachable cards -/

theorem key_eq_iff (a b : vCardProperty) :
    a.key = b.key ↔ (a.name = b.name ∧ a.params = b.params) := by
  simp [vCardProperty.key, Prod.ext_iff]

theorem addPropertyTo_keys (p : vCardProperty) :
    ∀ l : List vCardProperty,
      (addPropertyTo p l).map vCardProperty.key =
        if p.key ∈ l.map vCardProperty.key then l.map vCardProperty.key
        else l.map vCardProperty.key ++ [p.key] := by
  intro l
  induction l with
  | nil => simp [addPropertyTo]
  | cons cur rest ih =>
    by_cases hc : cur.name = p.name ∧ cur.params = p.params
    · have hk : cur.key = p.key := (key_eq_iff cur p).2 hc
      simp [addPropertyTo, hc, hk]
    · have hk : ¬ p.key = cur.key := fun h => hc ((key_eq_iff cur p).1 h.symm)
      simp only [addPropertyTo, hc, if_false, List.map_cons, List.mem_cons, hk, false_or, ih]
      split <;> simp

theorem addPropertyTo_nodup (p : vCardProperty) (l : List vCardProperty)
    (h : (l.map vCardProperty.key).Nodup) :
    ((addPropertyTo p l).map vCardProperty.key).Nodup := by
  rw [addPropertyTo_keys]
  split
  · exact h
  · next hn =>
    exact List.Nodup.append h (List.nodup_singleton _) (by
      intro k hk hk2
      rw [List.mem_singleton] at hk2
      subst hk2
      exact hn hk)

theorem addProperties_nodup (ps : List vCardProperty) :
    ∀ c : vCard, (c.m_properties.map vCardProperty.key).Nodup →
      ((c.addProperties ps).m_properties.map vCardProperty.key).Nodup := by
  induction ps with
  | nil => intro c h; exact h
  | cons p ps ih =>
    intro c h
    exact ih (c.addProperty p) (addPropertyTo_nodup p _ h)

theorem removePropertiesLoop_sublist (name : Str) :
    ∀ (i : Nat) (m : List vCardProperty), (removePropertiesLoop name i m).Sublist m := by
  intro i
  induction i with
  | zero => intro m; exact List.Sublist.refl m
  | succ i ih =>
    intro m
    unfold removePropertiesLoop
    split
    · split
      · exact (ih _).trans (List.eraseIdx_sublist m i)
      · exact ih m
    · exact ih m

theorem reachable_nodup (c : vCard) (h : Reachable c) :
    (c.m_properties.map vCardProperty.key).Nodup := by
  induction h with
  | new => simp [vCard.new]
  | addProperty c p _ ih => exact addPropertyTo_nodup p _ ih
  | addProperties c ps _ ih => exact addProperties_nodup ps c ih
  | removeProperties c name _ ih =>
    exact List.Nodup.sublist ((removePropertiesLoop_sublist name _ _).map _) ih

/-- C3. In a card reached from the empty card by `addProperty`, `addProperties`
and `removeProperties`, two stored properties at different positions never have
both the same name and the same parameter list. -/
theorem reachable_no_duplicate_key (c : vCard) (h : Reachable c) (i j : Nat)
    (p q : vCardProperty) (hi : c.m_properties[i]? = some p)
    (hj : c.m_properties[j]? = some q) (hij : i ≠ j) :
    ¬ (p.name = q.name ∧ p.params = q.params) := by
  intro hk
  have hnd := reachable_nodup c h
  have hi2 : (c.m_properties.map vCardProperty.key)[i]? = some p.key := by
    simp [List.getElem?_map, hi]
  have hj2 : (c.m_properties.map vCardProperty.key)[j]? = some p.key := by
    simp [List.getElem?_map, hj, (key_eq_iff p q).2 hk]
  have hil : i < (c.m_properties.map vCardProperty.key).length := by
    by_contra hh
    rw [List.getElem?_eq_none (by omega)] at hi2
    cases hi2
  have hjl : j < (c.m_properties.map vCardProperty.key).length := by
    by_contra hh
    rw [List.getElem?_eq_none (by omega)] at hj2
    cases hj2
  rw [List.getElem?_eq_getElem hil] at hi2
  rw [List.getElem?_eq_getElem hjl] at hj2
  have e : (c.m_properties.map vCardProperty.key)[i] = (c.m_properties.map vCardProperty.key)[j] := by
    rw [Option.some.inj hi2, Option.some.inj hj2]
  exact hij ((List.Nodup.getElem_inj_iff hnd).1 e)

/-- A reachable card with two `TEL` properties that differ in their parameter:
positions 0 and 1 do not agree on name and parameter list. -/
theorem reachable_no_duplicate_key_witness :
    ¬ ((⟨"TEL".toList, [⟨"TYPE".toList, "HOME".toList⟩], ["1".toList]⟩ : vCardProperty).name
          = (⟨"TEL".toList, [], ["2".toList]⟩ : vCardProperty).name ∧
       (⟨"TEL".toList, [⟨"TYPE".toList, "HOME".toList⟩], ["1".toList]⟩ : vCardProperty).params
          = (⟨"TEL".toList, [], ["2".toList]⟩ : vCardProperty).params) :=
  reachable_no_duplicate_key
    ((vCard.new.addProperty ⟨"TEL".toList, [⟨"TYPE".toList, "HOME".toList⟩], ["1".toList]⟩).addProperty
      ⟨"TEL".toList, [], ["2".toList]⟩)
    (Reachable.addProperty _ _ (Reachable.addProperty _ _ Reachable.new))
    0 1 _ _ (by decide) (by decide) (by decide)

/-! ## Strict lookup -/

theorem propertyIn_strict_eq_find (name : Str) (params : List vCardParam) :
    ∀ l : List vCardProperty,
      propertyIn name params true l =
        (l.find? (fun q => decide (q.name = name ∧ q.params = params))).getD
          vCardProperty.empty := by
  intro l
  induction l with
  | nil => rfl
  | cons cur rest ih =>
    by_cases hn : cur.name = name
    · by_cases hp : params = cur.params
      · simp [propertyIn, hn, hp, List.find?_cons]
      · have hp2 : ¬ cur.params = params := fun h => hp h.symm
        simp [propertyIn, hn, hp, hp2, List.find?_cons, ih]
    · simp [propertyIn, hn, List.find?_cons, ih]

theorem find_first_index {α : Type} (P : α → Bool) :
    ∀ (l : List α) (x : α), l.find? P = some x →
      ∃ i : Nat, l[i]? = some x ∧
        ∀ (j : Nat) (r : α), j < i → l[j]? = some r → ¬ P r = true := by
  intro l
  induction l with
  | nil => intro x h; cases h
  | cons a rest ih =>
    intro x h
    by_cases ha : P a = true
    · rw [List.find?_cons_of_pos _ ha] at h
      cases h
      exact ⟨0, by simp, fun j r hj => by omega⟩
    · rw [List.find?_cons_of_neg _ ha] at h
      obtain ⟨i, hi, hmin⟩ := ih x h
      refine ⟨i + 1, by simpa using hi, ?_⟩
      intro j r hj hr
      cases j with
      | zero =>
        simp at hr
        subst hr
        exact ha
      | succ j => exact hmin j r (by omega) (by simpa using hr)

/-- C7, as the code has it. With `strict = true`, `property(name, params)`
returns the stored property of lowest index whose name is `name` and whose
parameter list is `params`; it returns the default-constructed sentinel when no
stored property satisfies both; and for a non-empty `name` it returns the
sentinel exactly when no stored property satisfies both. -/
theorem property_strict_first_match (c : vCard) (name : Str) (params : List vCardParam) :
    ((∃ q ∈ c.m_properties, q.name = name ∧ q.params = params) →
      ((c.property name params true).name = name ∧
        (c.property name params true).params = params) ∧
      ∃ i : Nat, c.m_properties[i]? = some (c.property name params true) ∧
        ∀ (j : Nat) (r : vCardProperty), j < i → c.m_properties[j]? = some r →
          ¬ (r.name = name ∧ r.params = params)) ∧
    ((¬ ∃ q ∈ c.m_properties, q.name = name ∧ q.params = params) →
      c.property name params true = vCardProperty.empty) ∧
    (name ≠ [] →
      (c.property name params true = vCardProperty.empty ↔
        ¬ ∃ q ∈ c.m_properties, q.name = name ∧ q.params = params)) := by
  have hfound : (∃ q ∈ c.m_properties, q.name = name ∧ q.params = params) →
      ((c.property name params true).name = name ∧
        (c.property name params true).params = params) ∧
      ∃ i : Nat, c.m_properties[i]? = some (c.property name params true) ∧
        ∀ (j : Nat) (r : vCardProperty), j < i → c.m_properties[j]? = some r →
          ¬ (r.name = name ∧ r.params = params) := by
    rintro ⟨q, hq, hk⟩
    have hsome : (c.m_properties.find?
        (fun q => decide (q.name = name ∧ q.params = params))).isSome := by
      rw [List.find?_isSome]
      exact ⟨q, hq, by simpa using hk⟩
    obtain ⟨x, hx⟩ := Option.isSome_iff_exists.1 hsome
    have hres : c.property name params true = x := by
      rw [vCard.property, propertyIn_strict_eq_find, hx]
      rfl
    have hxk : x.name = name ∧ x.params = params := by
      simpa using List.find?_some hx
    obtain ⟨i, hi, hmin⟩ := find_first_index _ _ _ hx
    rw [hres]
    exact ⟨hxk, i, hi, fun j r hj hr => by simpa using hmin j r hj hr⟩
  have hnone : (¬ ∃ q ∈ c.m_properties, q.name = name ∧ q.params = params) →
      c.property name params true = vCardProperty.empty := by
    intro h
    have hn : c.m_properties.find?
        (fun q => decide (q.name = name ∧ q.params = params)) = none := by
      rw [List.find?_eq_none]
      intro q hq hk
      exact h ⟨q, hq, by simpa using hk⟩
    rw [vCard.property, propertyIn_strict_eq_find, hn]
    rfl
  refine ⟨hfound, hnone, ?_⟩
  intro hne
  constructor
  · intro he hex
    have hname := (hfound hex).1.1
    rw [he] at hname
    exact hne hname.symm
  · exact hnone

/-- The three parts of the strict lookup on the card `[FN, TEL;HOME]`: `TEL;HOME`
is found, `TEL` without parameter is not. -/
theorem property_strict_first_match_witness :
    ((vCard.mk [⟨"FN".toList, [], ["A".toList]⟩,
        ⟨"TEL".toList, [⟨"TYPE".toList, "HOME".toList⟩], ["1".toList]⟩]).property
      "TEL".toList [⟨"TYPE".toList, "HOME".toList⟩] true).name = "TEL".toList ∧
    (vCard.mk [⟨"FN".toList, [], ["A".toList]⟩,
        ⟨"TEL".toList, [⟨"TYPE".toList, "HOME".toList⟩], ["1".toList]⟩]).property
      "TEL".toList [] true = vCardProperty.empty :=
  ⟨((property_strict_first_match
      (vCard.mk [⟨"FN".toList, [], ["A".toList]⟩,
        ⟨"TEL".toList, [⟨"TYPE".toList, "HOME".toList⟩], ["1".toList]⟩])
      "TEL".toList [⟨"TYPE".toList, "HOME".toList⟩]).1
        ⟨_, List.mem_cons_of_mem _ (List.mem_cons_self _ _), by decide⟩).1.1,
   ((property_strict_first_match
      (vCard.mk [⟨"FN".toList, [], ["A".toList]⟩,
        ⟨"TEL".toList, [⟨"TYPE".toList, "HOME".toList⟩], ["1".toList]⟩])
      "TEL".toList []).2.2 (by decide)).2 (by decide)⟩

/-- C7 as stated fails for the empty name: on a card holding one
default-constructed property, the strict lookup of the empty name with no
parameter returns the sentinel although a stored property has that name and
that parameter list. -/
theorem property_strict_sentinel_counterexample :
    (vCard.mk [vCardProperty.empty]).property [] [] true = vCardProperty.empty ∧
    (vCard.mk [vCardProperty.empty]).m_properties[0]? = some vCardProperty.empty ∧
    (vCardProperty.empty.name = [] ∧ vCardProperty.empty.params = []) ∧
    ¬ ((vCard.mk [vCardProperty.empty]).property [] [] true = vCardProperty.empty ↔
      ¬ ∃ q ∈ (vCard.mk [vCardProperty.empty]).m_properties, q.name = [] ∧ q.params = []) := by
  decide

/-! ## Non-strict lookup -/

/-- C8 fails on the code. On a card holding one `TEL` without parameter, the
non-strict lookup of `TEL` with the parameter `TYPE=HOME` returns that `TEL`
property, whose parameter list does not hold `TYPE=HOME`; `contains` answers
true although no stored `TEL` holds the parameter. -/
theorem property_nonstrict_returns_without_param :
    (vCard.mk [⟨"TEL".toList, [], ["1".toList]⟩]).property "TEL".toList
        [⟨"TYPE".toList, "HOME".toList⟩] false = ⟨"TEL".toList, [], ["1".toList]⟩ ∧
    (⟨"TYPE".toList, "HOME".toList⟩ : vCardParam) ∉
      ((vCard.mk [⟨"TEL".toList, [], ["1".toList]⟩]).property "TEL".toList
        [⟨"TYPE".toList, "HOME".toList⟩] false).params ∧
    (vCard.mk [⟨"TEL".toList, [], ["1".toList]⟩]).contains "TEL".toList
        [⟨"TYPE".toList, "HOME".toList⟩] false = true ∧
    ¬ ∃ q ∈ (vCard.mk [⟨"TEL".toList, [], ["1".toList]⟩]).m_properties,
        q.name = "TEL".toList ∧
        ∀ x ∈ [(⟨"TYPE".toList, "HOME".toList⟩ : vCardParam)], x ∈ q.params := by
  decide

/-! ## Aggregate lookup -/

theorem collect_values_eq (name : Str) :
    ∀ (l : List vCardProperty) (acc : List Str),
      l.foldl (fun acc P => if P.name = name then acc ++ P.values else acc) acc =
        acc ++ ((l.filter (fun P => decide (P.name = name))).map vCardProperty.values).flatten := by
  intro l
  induction l with
  | nil => intro acc; simp
  | cons P rest ih =>
    intro acc
    by_cases h : P.name = name
    · simp [List.foldl_cons, h, ih, List.filter_cons]
    · simp [List.foldl_cons, h, ih, List.filter_cons]

/-- C9. `properties(name)` returns a property named `name` whose values are the
value lists of the stored properties named `name`, concatenated in stored
order, when that concatenation is non-empty; it returns the sentinel when no
stored property is named `name`; two `NICKNAME` properties holding `Al` and
`Steve` give the values `Al`, `Steve`. -/
theorem properties_aggregates_values (c : vCard) (name : Str) :
    ((((c.m_properties.filter (fun P => decide (P.name = name))).map
          vCardProperty.values).flatten ≠ [] →
      (c.propertiesByName name).name = name ∧
      (c.propertiesByName name).values =
        ((c.m_properties.filter (fun P => decide (P.name = name))).map
          vCardProperty.values).flatten) ∧
    ((∀ q ∈ c.m_properties, q.name ≠ name) →
      c.propertiesByName name = vCardProperty.empty)) ∧
    ((vCard.mk [⟨"NICKNAME".toList, [], ["Al".toList]⟩, ⟨"FN".toList, [], ["A".toList]⟩,
        ⟨"NICKNAME".toList, [⟨"TYPE".toList, "HOME".toList⟩], ["Steve".toList]⟩]).propertiesByName
      "NICKNAME".toList).values = ["Al".toList, "Steve".toList] := by
  refine ⟨⟨?_, ?_⟩, by decide⟩
  · intro h
    have e := collect_values_eq name c.m_properties []
    rw [List.nil_append] at e
    have hb : (((c.m_properties.filter (fun P => decide (P.name = name))).map
          vCardProperty.values).flatten).isEmpty = false := by
      cases hh : ((c.m_properties.filter (fun P => decide (P.name = name))).map
          vCardProperty.values).flatten with
      | nil => exact absurd hh h
      | cons a t => rfl
    simp only [vCard.propertiesByName, e, hb, vCardProperty.ofValues]
    exact ⟨rfl, rfl⟩
  · intro h
    have e := collect_values_eq name c.m_properties []
    rw [List.nil_append] at e
    have hf : c.m_properties.filter (fun P => decide (P.name = name)) = [] := by
      rw [List.filter_eq_nil_iff]
      intro q hq
      simpa using h q hq
    simp [vCard.propertiesByName, e, hf]

/-- The two general parts of C9 on concrete cards: a card with two `NICKNAME`
properties, and a card without any. -/
theorem properties_aggregates_values_witness :
    ((vCard.mk [⟨"NICKNAME".toList, [], ["Al".toList]⟩,
        ⟨"NICKNAME".toList, [⟨"TYPE".toList, "HOME".toList⟩], ["Steve".toList]⟩]).propertiesByName
      "NICKNAME".toList).name = "NICKNAME".toList ∧
    (vCard.mk [⟨"FN".toList, [], ["A".toList]⟩]).propertiesByName "NICKNAME".toList
      = vCardProperty.empty :=
  ⟨((properties_aggregates_values
      (vCard.mk [⟨"NICKNAME".toList, [], ["Al".toList]⟩,
        ⟨"NICKNAME".toList, [⟨"TYPE".toList, "HOME".toList⟩], ["Steve".toList]⟩])
      "NICKNAME".toList).1.1 (by decide)).1,
   (properties_aggregates_values (vCard.mk [⟨"FN".toList, [], ["A".toList]⟩])
      "NICKNAME".toList).1.2 (by decide)⟩

/-! ## addProperties -/

theorem find_addPropertyTo (k : Str × List vCardParam) (q : vCardProperty) :
    ∀ l : List vCardProperty,
      (addPropertyTo q l).find? (fun r => decide (r.key = k)) =
        if q.key = k then some q else l.find? (fun r => decide (r.key = k)) := by
  intro l
  induction l with
  | nil => simp [addPropertyTo, List.find?_cons]; split <;> simp_all
  | cons cur rest ih =>
    by_cases hc : cur.name = q.name ∧ cur.params = q.params
    · have hk : cur.key = q.key := (key_eq_iff cur q).2 hc
      simp only [addPropertyTo, hc, and_self, if_true, List.find?_cons, hk]
      by_cases hq : q.key = k <;> simp [hq]
    · have hk : ¬ cur.key = q.key := fun h => hc ((key_eq_iff cur q).1 h)
      simp only [addPropertyTo, hc, if_false, List.find?_cons, ih]
      by_cases hq : q.key = k
      · have hcur : ¬ cur.key = k := fun h => hk (h.trans hq.symm)
        simp [hq, hcur]
      · simp [hq]

theorem find_addProperties (k : Str × List vCardParam) (ps : List vCardProperty) :
    ∀ c : vCard,
      (c.addProperties ps).m_properties.find? (fun r => decide (r.key = k)) =
        match (ps.filter (fun r => decide (r.key = k))).getLast? with
        | some q => some q
        | none => c.m_properties.find? (fun r => decide (r.key = k)) := by
  induction ps using List.reverseRecOn with
  | nil => intro c; simp [vCard.addProperties]
  | append_singleton ps q ih =>
    intro c
    have e : c.addProperties (ps ++ [q]) = (c.addProperties ps).addProperty q := by
      simp [vCard.addProperties, List.foldl_append]
    rw [e, vCard.addProperty, find_addPropertyTo, ih c]
    by_cases hq : q.key = k
    · simp [hq, List.filter_append, List.filter_cons]
    · simp [hq, List.filter_append, List.filter_cons]

/-- C10. After `addProperties(ps)`, the strict lookup of the name and the
parameter list of any element `p` of `ps` returns the last element of `ps` that
has the name and the parameter list of `p`. -/
theorem addProperties_last_wins (c : vCard) (ps : List vCardProperty) (p : vCardProperty)
    (hp : p ∈ ps) :
    (ps.filter (fun q => decide (q.name = p.name ∧ q.params = p.params))).getLast? =
      some ((c.addProperties ps).property p.name p.params true) := by
  have hfun : (fun q : vCardProperty => decide (q.name = p.name ∧ q.params = p.params)) =
      (fun r => decide (r.key = p.key)) := by
    funext q
    simp [key_eq_iff]
  have hmem : p ∈ ps.filter (fun r => decide (r.key = p.key)) := by
    simp [List.mem_filter, hp]
  have hf := find_addProperties p.key ps c
  rw [vCard.property, propertyIn_strict_eq_find, hfun, hf]
  cases hl : (ps.filter (fun r => decide (r.key = p.key))).getLast? with
  | none =>
    rw [List.getLast?_eq_none_iff] at hl
    rw [hl] at hmem
    cases hmem
  | some q => rfl

/-- Two `FN` entries in one `addProperties` call: the lookup returns the second. -/
theorem addProperties_last_wins_witness :
    ([(⟨"FN".toList, [], ["A".toList]⟩ : vCardProperty), ⟨"TEL".toList, [], ["1".toList]⟩,
        ⟨"FN".toList, [], ["B".toList]⟩].filter
      (fun q => decide (q.name = "FN".toList ∧ q.params = []))).getLast? =
      some ((vCard.new.addProperties
        [⟨"FN".toList, [], ["A".toList]⟩, ⟨"TEL".toList, [], ["1".toList]⟩,
          ⟨"FN".toList, [], ["B".toList]⟩]).property "FN".toList [] true) :=
  addProperties_last_wins vCard.new
    [⟨"FN".toList, [], ["A".toList]⟩, ⟨"TEL".toList, [], ["1".toList]⟩,
      ⟨"FN".toList, [], ["B".toList]⟩]
    ⟨"FN".toList, [], ["A".toList]⟩ (List.mem_cons_self _ _)

/-! ## Text primitives: `simplified`, `split`, `joinLines` -/

theorem isSpace_space : isSpace ' ' = true := by decide

theorem simplifiedAux_fixed :
    ∀ s : Str,
      (simplifiedTail false s = true → simplifiedAux false true s = s) ∧
      (simplifiedTail true s = true → simplifiedAux true true s = ' ' :: s) := by
  intro s
  induction s with
  | nil => simp [simplifiedTail, simplifiedAux]
  | cons c cs ih =>
    by_cases hc : isSpace c = true
    · constructor
      · intro h
        simp only [simplifiedTail, hc, if_true, Bool.not_false, Bool.true_and,
          Bool.and_eq_true, decide_eq_true_eq] at h
        simp only [simplifiedAux, hc, if_true]
        rw [ih.2 h.2, h.1]
      · intro h
        simp [simplifiedTail, hc] at h
    · constructor
      · intro h
        simp only [simplifiedTail, hc] at h
        simp only [simplifiedAux, hc]
        simp [ih.1 h]
      · intro h
        simp only [simplifiedTail, hc] at h
        simp only [simplifiedAux, hc]
        simp [ih.1 h]

theorem simplified_of_isSimplified (s : Str) (h : isSimplified s = true) : simplified s = s := by
  cases s with
  | nil => rfl
  | cons c cs =>
    simp only [isSimplified, Bool.and_eq_true, Bool.not_eq_true'] at h
    simp only [simplified, simplifiedAux, h.1]
    simp [(simplifiedAux_fixed cs).1 h.2]

theorem simplifiedAux_shape :
    ∀ s : Str,
      simplifiedTail false (simplifiedAux false true s) = true ∧
      simplifiedTail false (simplifiedAux true true s) = true ∧
      isSimplified (simplifiedAux false false s) = true := by
  intro s
  induction s with
  | nil => simp [simplifiedTail, simplifiedAux, isSimplified]
  | cons c cs ih =>
    by_cases hc : isSpace c = true
    · simp only [simplifiedAux, hc, if_true]
      exact ⟨ih.2.1, ih.2.1, ih.2.2⟩
    · simp only [simplifiedAux, hc]
      refine ⟨?_, ?_, ?_⟩
      · simp [simplifiedTail, hc, ih.1]
      · simp [simplifiedTail, hc, ih.1, isSpace_space]
      · simp [isSimplified, hc, ih.1]

theorem isSimplified_simplified (s : Str) : isSimplified (simplified s) = true :=
  (simplifiedAux_shape s).2.2

theorem simplifiedTail_of_isSimplified (x : Str) (h : isSimplified x = true) :
    simplifiedTail false x = true := by
  cases x with
  | nil => rfl
  | cons d r =>
    simp only [isSimplified, Bool.and_eq_true, Bool.not_eq_true'] at h
    simp [simplifiedTail, h.1, h.2]

theorem simplifiedTail_append (x : Str) (hx : isSimplified x = true) :
    ∀ (a : Str) (b : Bool), simplifiedTail b a = true → simplifiedTail b (a ++ x) = true := by
  intro a
  induction a with
  | nil =>
    intro b h
    cases b with
    | true => simp [simplifiedTail] at h
    | false => simpa using simplifiedTail_of_isSimplified x hx
  | cons c cs ih =>
    intro b h
    by_cases hc : isSpace c = true
    · simp only [simplifiedTail, hc, if_true, Bool.and_eq_true, Bool.not_eq_true',
        decide_eq_true_eq] at h
      simp only [List.cons_append, simplifiedTail, hc, if_true, Bool.and_eq_true,
        Bool.not_eq_true', decide_eq_true_eq]
      exact ⟨h.1, h.2.1, ih true h.2.2⟩
    · simp only [simplifiedTail, hc] at h
      simp only [List.cons_append, simplifiedTail, hc]
      exact ih false h

theorem isSimplified_append (a x : Str) (ha : isSimplified a = true)
    (hx : isSimplified x = true) : isSimplified (a ++ x) = true := by
  cases a with
  | nil => simpa using hx
  | cons c cs =>
    simp only [isSimplified, Bool.and_eq_true, Bool.not_eq_true'] at ha
    simp only [List.cons_append, isSimplified, Bool.and_eq_true, Bool.not_eq_true']
    exact ⟨ha.1, simplifiedTail_append x hx cs false ha.2⟩

theorem isSimplified_flatten (ls : List Str) :
    isSimplified (ls.map simplified).flatten = true := by
  induction ls with
  | nil => rfl
  | cons l ls ih =>
    simp only [List.map_cons, List.flatten_cons]
    exact isSimplified_append _ _ (isSimplified_simplified l) ih

theorem startsWith_space_of_isSimplified (s : Str) (h : isSimplified s = true) :
    startsWith s ' ' = false := by
  cases s with
  | nil => rfl
  | cons c cs =>
    simp only [isSimplified, Bool.and_eq_true, Bool.not_eq_true'] at h
    simp only [startsWith, decide_eq_false_iff_not]
    intro hc
    rw [hc, isSpace_space] at h
    cases h.1

theorem split_ne_nil (sep : Char) : ∀ s : Str, split sep s ≠ [] := by
  intro s
  induction s with
  | nil => simp [split]
  | cons c cs ih =>
    unfold split
    split
    · simp
    · split <;> simp

theorem split_append (sep : Char) (b : Str) :
    ∀ a : Str, split sep (a ++ sep :: b) = split sep a ++ split sep b := by
  intro a
  induction a with
  | nil => simp [split]
  | cons c cs ih =>
    by_cases hc : c = sep
    · simp [split, hc, ih]
    · have h1 := split_ne_nil sep cs
      have e1 : split sep (c :: (cs ++ sep :: b)) =
          match split sep (cs ++ sep :: b) with
          | [] => [[c]]
          | piece :: pieces => (c :: piece) :: pieces := by
        simp [split, hc]
      have e2 : split sep (c :: cs) =
          match split sep cs with
          | [] => [[c]]
          | piece :: pieces => (c :: piece) :: pieces := by
        simp [split, hc]
      rw [List.cons_append, e1, e2, ih]
      cases hs : split sep cs with
      | nil => exact absurd hs h1
      | cons piece pieces => simp

theorem split_of_not_mem (sep : Char) :
    ∀ l : Str, sep ∉ l → split sep l = [l] := by
  intro l
  induction l with
  | nil => intro _; rfl
  | cons c cs ih =>
    intro h
    have hc : ¬ c = sep := fun e => h (by simp [e])
    have hcs : sep ∉ cs := fun e => h (List.mem_cons_of_mem _ e)
    simp [split, hc, ih hcs]

theorem split_joinLines (sep : Char) :
    ∀ lines : List Str, lines ≠ [] → (∀ l ∈ lines, sep ∉ l) →
      split sep (joinLines sep lines) = lines := by
  intro lines
  induction lines with
  | nil => intro h; exact absurd rfl h
  | cons l ls ih =>
    intro _ hno
    cases ls with
    | nil => simpa [joinLines] using split_of_not_mem sep l (hno l (List.mem_cons_self _ _))
    | cons l2 ls2 =>
      have e : joinLines sep (l :: l2 :: ls2) = l ++ sep :: joinLines sep (l2 :: ls2) := rfl
      rw [e, split_append, split_of_not_mem sep l (hno l (List.mem_cons_self _ _)),
        ih (by simp) (fun x hx => hno x (List.mem_cons_of_mem _ hx))]
      rfl

theorem split_head_append (sep : Char) (b : Str) (a : Str) :
    (split sep (a ++ sep :: b)).head? = (split sep a).head? := by
  rw [split_append]
  cases hs : split sep a with
  | nil => exact absurd hs (split_ne_nil sep a)
  | cons piece pieces => rfl

/-! ## The decoder loop and its logical lines -/

theorem logicalLines_single (cl it : Str) :
    logicalLines cl [it] = [if (!startsWith it ' ') = true then simplified it else cl] := by
  rw [logicalLines]
  simp only [List.head?_nil]
  rw [logicalLines]

theorem logicalLines_cons_continued (cl it n : Str) (r : List Str)
    (hn : startsWith n ' ' = true) :
    logicalLines cl (it :: n :: r) =
      logicalLines ((if (!startsWith it ' ') = true then simplified it else cl) ++ simplified n)
        (n :: r) := by
  rw [logicalLines]
  simp only [List.head?_cons, hn, if_true]

theorem logicalLines_cons_completed (cl it n : Str) (r : List Str)
    (hn : startsWith n ' ' = false) :
    logicalLines cl (it :: n :: r) =
      (if (!startsWith it ' ') = true then simplified it else cl) :: logicalLines [] (n :: r) := by
  rw [logicalLines]
  simp only [List.head?_cons, hn, Bool.false_eq_true, if_false]

theorem parseLines_single (codec : PropertyCodec) (s : CardState) (cl it : Str) :
    parseLines codec (s, cl) [it] =
      (dispatch codec s (if (!startsWith it ' ') = true then simplified it else cl), []) := by
  rw [parseLines, parseLines]
  simp only [parseStep, List.head?_nil]

theorem parseLines_cons_continued (codec : PropertyCodec) (s : CardState) (cl it n : Str)
    (r : List Str) (hn : startsWith n ' ' = true) :
    parseLines codec (s, cl) (it :: n :: r) =
      parseLines codec
        (s, (if (!startsWith it ' ') = true then simplified it else cl) ++ simplified n)
        (n :: r) := by
  rw [parseLines]
  simp only [parseStep, List.head?_cons, hn, if_true]

theorem parseLines_cons_completed (codec : PropertyCodec) (s : CardState) (cl it n : Str)
    (r : List Str) (hn : startsWith n ' ' = false) :
    parseLines codec (s, cl) (it :: n :: r) =
      parseLines codec
        (dispatch codec s (if (!startsWith it ' ') = true then simplified it else cl), [])
        (n :: r) := by
  rw [parseLines]
  simp only [parseStep, List.head?_cons, hn, Bool.false_eq_true, if_false]

theorem parseLines_fst (codec : PropertyCodec) :
    ∀ (lines : List Str) (s : CardState) (cl : Str),
      (parseLines codec (s, cl) lines).1 = (logicalLines cl lines).foldl (dispatch codec) s := by
  intro lines
  induction lines with
  | nil => intro s cl; rfl
  | cons it rest ih =>
    intro s cl
    cases rest with
    | nil => rw [parseLines_single, logicalLines_single]; rfl
    | cons n r =>
      cases hn : startsWith n ' ' with
      | true => rw [parseLines_cons_continued _ _ _ _ _ _ hn,
          logicalLines_cons_continued _ _ _ _ hn, ih]
      | false => rw [parseLines_cons_completed _ _ _ _ _ _ hn,
          logicalLines_cons_completed _ _ _ _ hn, ih, List.foldl_cons]

theorem fromByteArray_eq_foldl (codec : PropertyCodec) (eol : Char) (data : Str) :
    vCard.fromByteArray codec eol data =
      ((unfold eol data).foldl (dispatch codec) initialState.1).vcards := by
  simp only [vCard.fromByteArray, finalState, unfold, initialState, parseLines_fst]

theorem finalState_fst (codec : PropertyCodec) (eol : Char) (data : Str) :
    (finalState codec eol data).1 = (unfold eol data).foldl (dispatch codec) initialState.1 := by
  simp only [finalState, unfold, initialState, parseLines_fst]

theorem logicalLines_reset (lines : List Str) (cl cl2 : Str)
    (h : ∀ n, lines.head? = some n → startsWith n ' ' = false) :
    logicalLines cl lines = logicalLines cl2 lines := by
  cases lines with
  | nil => rfl
  | cons it rest =>
    have hit : startsWith it ' ' = false := h it rfl
    cases rest with
    | nil => rw [logicalLines_single, logicalLines_single]; simp [hit]
    | cons n r =>
      cases hn : startsWith n ' ' with
      | true =>
        rw [logicalLines_cons_continued _ _ _ _ hn, logicalLines_cons_continued _ _ _ _ hn]
        simp [hit]
      | false =>
        rw [logicalLines_cons_completed _ _ _ _ hn, logicalLines_cons_completed _ _ _ _ hn]
        simp [hit]

theorem logicalLines_append (l2 : List Str)
    (h2 : ∀ n, l2.head? = some n → startsWith n ' ' = false) :
    ∀ (l1 : List Str) (cl : Str),
      logicalLines cl (l1 ++ l2) = logicalLines cl l1 ++ logicalLines [] l2 := by
  intro l1
  induction l1 with
  | nil =>
    intro cl
    rw [List.nil_append, logicalLines_reset l2 cl [] h2]
    rfl
  | cons it rest ih =>
    intro cl
    cases rest with
    | nil =>
      cases l2 with
      | nil => simp [logicalLines]
      | cons n r =>
        have hn : startsWith n ' ' = false := h2 n rfl
        show logicalLines cl (it :: n :: r) = _
        rw [logicalLines_cons_completed _ _ _ _ hn, logicalLines_single]
        rfl
    | cons n r =>
      show logicalLines cl (it :: n :: (r ++ l2)) = _
      have ih2 : ∀ cl, logicalLines cl (n :: (r ++ l2)) =
          logicalLines cl (n :: r) ++ logicalLines [] l2 := ih
      cases hn : startsWith n ' ' with
      | true =>
        rw [logicalLines_cons_continued _ _ _ _ hn, logicalLines_cons_continued _ _ _ _ hn, ih2]
      | false =>
        rw [logicalLines_cons_completed _ _ _ _ hn, logicalLines_cons_completed _ _ _ _ hn, ih2]
        rfl

theorem logicalLines_continuations (post : List Str)
    (hpost : ∀ n, post.head? = some n → startsWith n ' ' = false) :
    ∀ (Ls : List Str) (l : Str) (cl : Str), startsWith l ' ' = true →
      (∀ x ∈ Ls, startsWith x ' ' = true) →
      logicalLines cl (l :: (Ls ++ post)) =
        (cl ++ (Ls.map simplified).flatten) :: logicalLines [] post := by
  intro Ls
  induction Ls with
  | nil =>
    intro l cl hl _
    cases post with
    | nil => rw [List.nil_append, logicalLines_single]; simp [hl, logicalLines]
    | cons n r =>
      have hn : startsWith n ' ' = false := hpost n rfl
      rw [List.nil_append, logicalLines_cons_completed _ _ _ _ hn]
      simp [hl]
  | cons l2 Ls ih =>
    intro l cl hl hall
    have h2 : startsWith l2 ' ' = true := hall l2 (List.mem_cons_self _ _)
    have hrest : ∀ x ∈ Ls, startsWith x ' ' = true :=
      fun x hx => hall x (List.mem_cons_of_mem _ hx)
    show logicalLines cl (l :: l2 :: (Ls ++ post)) = _
    rw [logicalLines_cons_continued _ _ _ _ h2, ih l2 _ h2 hrest]
    simp [hl]

theorem logicalLines_group (L0 : Str) (Ls post : List Str) (cl : Str)
    (h0 : startsWith L0 ' ' = false) (hne : Ls ≠ [])
    (hLs : ∀ x ∈ Ls, startsWith x ' ' = true)
    (hpost : ∀ n, post.head? = some n → startsWith n ' ' = false) :
    logicalLines cl (L0 :: (Ls ++ post)) =
      (simplified L0 ++ (Ls.map simplified).flatten) :: logicalLines [] post := by
  cases Ls with
  | nil => exact absurd rfl hne
  | cons l Ls =>
    have hl : startsWith l ' ' = true := hLs l (List.mem_cons_self _ _)
    have hrest : ∀ x ∈ Ls, startsWith x ' ' = true :=
      fun x hx => hLs x (List.mem_cons_of_mem _ hx)
    show logicalLines cl (L0 :: l :: (Ls ++ post)) = _
    rw [logicalLines_cons_continued _ _ _ _ hl,
      logicalLines_continuations post hpost Ls l _ hl hrest]
    simp [h0]

theorem logicalLines_unfolded :
    ∀ (lines : List Str) (cl : Str), (∀ l ∈ lines, startsWith l ' ' = false) →
      logicalLines cl lines = lines.map simplified := by
  intro lines
  induction lines with
  | nil => intro cl _; rfl
  | cons it rest ih =>
    intro cl h
    have hit : startsWith it ' ' = false := h it (List.mem_cons_self _ _)
    have hr : ∀ l ∈ rest, startsWith l ' ' = false :=
      fun l hl => h l (List.mem_cons_of_mem _ hl)
    cases rest with
    | nil => rw [logicalLines_single]; simp [hit]
    | cons n r =>
      have hn : startsWith n ' ' = false := hr n (List.mem_cons_self _ _)
      rw [logicalLines_cons_completed _ _ _ _ hn, ih [] hr]
      simp [hit]

/-! ## The dispatch chain -/

theorem begin_ne_end : VC_BEGIN_TOKEN ≠ VC_END_TOKEN := by decide

theorem end_ne_begin : VC_END_TOKEN ≠ VC_BEGIN_TOKEN := by decide

theorem dispatch_shift (codec : PropertyCodec) (v : List vCard) (s : CardState) (line : Str) :
    dispatch codec (s.shift v) line = (dispatch codec s line).shift v := by
  rcases s with ⟨vs, cur, st⟩
  cases st <;> by_cases hb : line = VC_BEGIN_TOKEN <;> by_cases he : line = VC_END_TOKEN <;>
    simp [dispatch, CardState.shift, hb, he, begin_ne_end, end_ne_begin]

theorem foldl_dispatch_shift (codec : PropertyCodec) (v : List vCard) :
    ∀ (ls : List Str) (s : CardState),
      ls.foldl (dispatch codec) (s.shift v) = (ls.foldl (dispatch codec) s).shift v := by
  intro ls
  induction ls with
  | nil => intro s; rfl
  | cons l ls ih =>
    intro s
    rw [List.foldl_cons, List.foldl_cons, dispatch_shift, ih]

theorem dispatch_idle (codec : PropertyCodec) (s : CardState) (line : Str)
    (h : s.started = false → s.current = vCard.new) :
    (dispatch codec s line).started = false → (dispatch codec s line).current = vCard.new := by
  rcases s with ⟨vs, cur, st⟩
  cases st
  · have hc : cur = vCard.new := h rfl
    by_cases hb : line = VC_BEGIN_TOKEN <;> simp [dispatch, hb, hc]
  · by_cases he : line = VC_END_TOKEN <;> simp [dispatch, he, vCard.clear, vCard.new]

theorem foldl_dispatch_idle (codec : PropertyCodec) :
    ∀ (ls : List Str) (s : CardState), (s.started = false → s.current = vCard.new) →
      (ls.foldl (dispatch codec) s).started = false →
      (ls.foldl (dispatch codec) s).current = vCard.new := by
  intro ls
  induction ls with
  | nil => intro s h; exact h
  | cons l ls ih =>
    intro s h
    rw [List.foldl_cons]
    exact ih _ (dispatch_idle codec s l h)

theorem dispatch_vcards_of_ne_end (codec : PropertyCodec) (s : CardState) (line : Str)
    (h : line ≠ VC_END_TOKEN) : (dispatch codec s line).vcards = s.vcards := by
  rcases s with ⟨vs, cur, st⟩
  cases st <;> by_cases hb : line = VC_BEGIN_TOKEN <;>
    simp [dispatch, hb, h, begin_ne_end, end_ne_begin]

theorem foldl_dispatch_vcards (codec : PropertyCodec) :
    ∀ (ls : List Str) (s : CardState), VC_END_TOKEN ∉ ls →
      (ls.foldl (dispatch codec) s).vcards = s.vcards := by
  intro ls
  induction ls with
  | nil => intro s _; rfl
  | cons l ls ih =>
    intro s h
    have hl : l ≠ VC_END_TOKEN := fun e => h (by simp [e])
    have hls : VC_END_TOKEN ∉ ls := fun e => h (List.mem_cons_of_mem _ e)
    rw [List.foldl_cons, ih _ hls, dispatch_vcards_of_ne_end codec s l hl]

theorem unfold_append (eol : Char) (d1 d2 : Str)
    (hfirst : ∀ n, (split eol d2).head? = some n → startsWith n ' ' = false) :
    unfold eol (d1 ++ eol :: d2) = unfold eol d1 ++ unfold eol d2 := by
  simp only [unfold, split_append]
  exact logicalLines_append _ hfirst _ _

theorem fromByteArray_nil (codec : PropertyCodec) (eol : Char) :
    vCard.fromByteArray codec eol [] = [] := by
  rw [fromByteArray_eq_foldl]
  have e : unfold eol [] = [[]] := by
    simp [unfold, split, logicalLines_single, simplified, simplifiedAux, startsWith]
  rw [e]
  exact foldl_dispatch_vcards codec _ _ (by decide)

theorem fromByteArray_append (codec : PropertyCodec) (eol : Char) (d1 d2 : Str)
    (hclosed : (finalState codec eol d1).1.started = false)
    (hfirst : ∀ n, (split eol d2).head? = some n → startsWith n ' ' = false) :
    vCard.fromByteArray codec eol (d1 ++ eol :: d2) =
      vCard.fromByteArray codec eol d1 ++ vCard.fromByteArray codec eol d2 := by
  rw [fromByteArray_eq_foldl, fromByteArray_eq_foldl, fromByteArray_eq_foldl,
    unfold_append eol d1 d2 hfirst, List.foldl_append]
  rw [finalState_fst] at hclosed
  have hcur := foldl_dispatch_idle codec (unfold eol d1) initialState.1 (fun _ => rfl) hclosed
  have hs : (unfold eol d1).foldl (dispatch codec) initialState.1 =
      initialState.1.shift ((unfold eol d1).foldl (dispatch codec) initialState.1).vcards := by
    cases hst : (unfold eol d1).foldl (dispatch codec) initialState.1 with
    | mk v cur st =>
      rw [hst] at hclosed hcur
      simp only at hclosed hcur
      simp [CardState.shift, initialState, hclosed, hcur]
  rw [hs, foldl_dispatch_shift]
  simp [CardState.shift, initialState]

theorem joinLines_first_line (eol : Char) :
    ∀ (docs : List Str),
      (∀ d ∈ docs, ∀ n, (split eol d).head? = some n → startsWith n ' ' = false) →
      ∀ n, (split eol (joinLines eol docs)).head? = some n → startsWith n ' ' = false := by
  intro docs h
  cases docs with
  | nil => intro n hn; simp [joinLines, split] at hn; subst hn; rfl
  | cons d rest =>
    cases rest with
    | nil => exact h d (List.mem_cons_self _ _)
    | cons d2 r =>
      have e : joinLines eol (d :: d2 :: r) = d ++ eol :: joinLines eol (d2 :: r) := rfl
      rw [e, split_head_append]
      exact h d (List.mem_cons_self _ _)

theorem fromByteArray_joinLines (codec : PropertyCodec) (eol : Char) :
    ∀ docs : List Str,
      (∀ d ∈ docs, (finalState codec eol d).1.started = false) →
      (∀ d ∈ docs, ∀ n, (split eol d).head? = some n → startsWith n ' ' = false) →
      vCard.fromByteArray codec eol (joinLines eol docs) =
        (docs.map (vCard.fromByteArray codec eol)).flatten := by
  intro docs
  induction docs with
  | nil => intro _ _; exact fromByteArray_nil codec eol
  | cons d rest ih =>
    intro hc hf
    cases rest with
    | nil => simp [joinLines]
    | cons d2 r =>
      have e : joinLines eol (d :: d2 :: r) = d ++ eol :: joinLines eol (d2 :: r) := rfl
      rw [e, fromByteArray_append codec eol d _ (hc d (List.mem_cons_self _ _))
        (joinLines_first_line eol (d2 :: r) (fun x hx => hf x (List.mem_cons_of_mem _ hx))),
        ih (fun x hx => hc x (List.mem_cons_of_mem _ hx))
          (fun x hx => hf x (List.mem_cons_of_mem _ hx))]
      simp

theorem firstLine_of_not_continues (eol : Char) (data : Str)
    (h : firstLineContinues eol data = false) :
    ∀ n, (split eol data).head? = some n → startsWith n ' ' = false := by
  intro n hn
  simpa [firstLineContinues, hn] using h

/-! ## Unfolding (C4) -/

/-- C4. The cards the decoder returns are those its dispatch chain collects over
the logical lines of the input.  A raw line `L0` that does not start with a
space, followed by one or more raw lines `Ls` that each start with a space (and
then by the end of the input or by a line that does not start with a space), is
completed as exactly one logical line, `simplified L0` followed by the
simplified continuation lines without separator; an input holding that single
concatenated line in place of the group has the same logical lines and decodes
to the same cards; and `FN:John\r\n Smith` unfolds to `FN:JohnSmith`. -/
theorem unfolding_joins_continuations (codec : PropertyCodec) (eol : Char) :
    (∀ data : Str, vCard.fromByteArray codec eol data =
      ((unfold eol data).foldl (dispatch codec) initialState.1).vcards) ∧
    (∀ (pre : List Str) (L0 : Str) (Ls post : List Str) (data : Str),
      startsWith L0 ' ' = false → Ls ≠ [] → (∀ l ∈ Ls, startsWith l ' ' = true) →
      (∀ n, post.head? = some n → startsWith n ' ' = false) →
      split eol data = pre ++ L0 :: (Ls ++ post) →
      unfold eol data =
          logicalLines [] pre ++
            (simplified L0 ++ (Ls.map simplified).flatten) :: logicalLines [] post ∧
      ∀ joined : Str,
        split eol joined = pre ++ (simplified L0 ++ (Ls.map simplified).flatten) :: post →
        unfold eol joined = unfold eol data ∧
        vCard.fromByteArray codec eol joined = vCard.fromByteArray codec eol data) ∧
    unfold '\n' "FN:John\r\n Smith".toList = ["FN:JohnSmith".toList] := by
  refine ⟨fromByteArray_eq_foldl codec eol, ?_, by decide⟩
  intro pre L0 Ls post data h0 hne hLs hpost hsplit
  have hgroup : unfold eol data =
      logicalLines [] pre ++
        (simplified L0 ++ (Ls.map simplified).flatten) :: logicalLines [] post := by
    rw [unfold, hsplit, logicalLines_append _ (by intro n hn; cases hn; exact h0),
      logicalLines_group L0 Ls post [] h0 hne hLs hpost]
  refine ⟨hgroup, ?_⟩
  intro joined hj
  have hC : isSimplified (simplified L0 ++ (Ls.map simplified).flatten) = true :=
    isSimplified_append _ _ (isSimplified_simplified L0) (isSimplified_flatten Ls)
  have hCs := startsWith_space_of_isSimplified _ hC
  have hCf := simplified_of_isSimplified _ hC
  have hjoined : unfold eol joined = unfold eol data := by
    rw [hgroup, unfold, hj, logicalLines_append _ (by intro n hn; cases hn; exact hCs)]
    have e : (simplified L0 ++ (Ls.map simplified).flatten) :: post =
        [simplified L0 ++ (Ls.map simplified).flatten] ++ post := rfl
    rw [e, logicalLines_append post hpost, logicalLines_single]
    simp [hCs, hCf]
  exact ⟨hjoined, by rw [fromByteArray_eq_foldl, fromByteArray_eq_foldl, hjoined]⟩

/-- The folded `FN` line inside a card, decoded with the codec written after
the specification: same cards as with the single line `FN:JohnSmith`. -/
theorem unfolding_joins_continuations_witness :
    vCard.fromByteArray specCodec '\n' "BEGIN:VCARD\nFN:JohnSmith\nEND:VCARD".toList =
      vCard.fromByteArray specCodec '\n' "BEGIN:VCARD\nFN:John\r\n Smith\nEND:VCARD".toList :=
  (((unfolding_joins_continuations specCodec '\n').2.1
      ["BEGIN:VCARD".toList] "FN:John\r".toList [" Smith".toList] ["END:VCARD".toList]
      "BEGIN:VCARD\nFN:John\r\n Smith\nEND:VCARD".toList
      (by decide) (by decide) (by decide) (by intro n hn; cases hn; decide) (by decide)).2
    "BEGIN:VCARD\nFN:JohnSmith\nEND:VCARD".toList (by decide)).2

/-! ## Several documents in one input (C5) -/

/-- C5. When decoding `d1` alone ends outside a card and the first raw line of
`d2` does not start with a space, the input `d1`, line terminator, `d2` decodes
to the cards of `d1` followed by the cards of `d2`; hence documents that each
decode to one card and end outside a card, joined by the line terminator,
decode to as many cards as there are documents, in document order. -/
theorem decode_documents_in_order (codec : PropertyCodec) (eol : Char) :
    (∀ d1 d2 : Str, (finalState codec eol d1).1.started = false →
      firstLineContinues eol d2 = false →
      vCard.fromByteArray codec eol (d1 ++ eol :: d2) =
        vCard.fromByteArray codec eol d1 ++ vCard.fromByteArray codec eol d2) ∧
    (∀ docs : List Str,
      (∀ d ∈ docs, (finalState codec eol d).1.started = false ∧
        firstLineContinues eol d = false ∧ (vCard.fromByteArray codec eol d).length = 1) →
      vCard.fromByteArray codec eol (joinLines eol docs) =
          (docs.map (vCard.fromByteArray codec eol)).flatten ∧
      (vCard.fromByteArray codec eol (joinLines eol docs)).length = docs.length) := by
  constructor
  · intro d1 d2 hc hf
    exact fromByteArray_append codec eol d1 d2 hc (firstLine_of_not_continues eol d2 hf)
  · intro docs h
    have e := fromByteArray_joinLines codec eol docs (fun d hd => (h d hd).1)
      (fun d hd => firstLine_of_not_continues eol d (h d hd).2.1)
    refine ⟨e, ?_⟩
    rw [e]
    have hlen : ∀ ds : List Str, (∀ d ∈ ds, (vCard.fromByteArray codec eol d).length = 1) →
        ((ds.map (vCard.fromByteArray codec eol)).flatten).length = ds.length := by
      intro ds
      induction ds with
      | nil => intro _; rfl
      | cons d ds ih =>
        intro hd
        simp only [List.map_cons, List.flatten_cons, List.length_append, List.length_cons]
        rw [hd d (List.mem_cons_self _ _), ih (fun x hx => hd x (List.mem_cons_of_mem _ hx))]
        omega
    exact hlen docs (fun d hd => (h d hd).2.2)

/-- The two-document input of the specification, decoded with the codec
written after it: two cards, whose `FN` values are `A` and `B` in that order. -/
theorem decode_documents_in_order_witness :
    (vCard.fromByteArray specCodec '\n'
      (joinLines '\n' ["BEGIN:VCARD\r\nVERSION:3.0\r\nFN:A\r\nEND:VCARD\r".toList,
        "BEGIN:VCARD\r\nVERSION:3.0\r\nFN:B\r\nEND:VCARD".toList])).length = 2 ∧
    joinLines '\n' ["BEGIN:VCARD\r\nVERSION:3.0\r\nFN:A\r\nEND:VCARD\r".toList,
        "BEGIN:VCARD\r\nVERSION:3.0\r\nFN:B\r\nEND:VCARD".toList] =
      "BEGIN:VCARD\r\nVERSION:3.0\r\nFN:A\r\nEND:VCARD\r\nBEGIN:VCARD\r\nVERSION:3.0\r\nFN:B\r\nEND:VCARD".toList ∧
    (vCard.fromByteArray specCodec '\n'
      "BEGIN:VCARD\r\nVERSION:3.0\r\nFN:A\r\nEND:VCARD\r\nBEGIN:VCARD\r\nVERSION:3.0\r\nFN:B\r\nEND:VCARD".toList).map
        (fun c => (c.property "FN".toList [] true).values) = [["A".toList], ["B".toList]] :=
  ⟨((decode_documents_in_order specCodec '\n').2
      ["BEGIN:VCARD\r\nVERSION:3.0\r\nFN:A\r\nEND:VCARD\r".toList,
        "BEGIN:VCARD\r\nVERSION:3.0\r\nFN:B\r\nEND:VCARD".toList] (by decide)).2,
    by decide, by decide⟩

/-! ## A card without its end line (C6) -/

/-- C6. A tail whose first raw line does not start with a space and none of whose
logical lines is `END:VCARD` adds no card: the input `d`, line terminator, `t`
decodes to the cards of `d`; an input without a logical line `END:VCARD`
decodes to no card, as does `BEGIN:VCARD\r\nFN:X`. -/
theorem unterminated_card_dropped (codec : PropertyCodec) (eol : Char) :
    (∀ d t : Str, firstLineContinues eol t = false → VC_END_TOKEN ∉ unfold eol t →
      vCard.fromByteArray codec eol (d ++ eol :: t) = vCard.fromByteArray codec eol d) ∧
    (∀ d : Str, VC_END_TOKEN ∉ unfold eol d → vCard.fromByteArray codec eol d = []) ∧
    vCard.fromByteArray codec '\n' "BEGIN:VCARD\r\nFN:X".toList = [] := by
  have hnoend : ∀ (e : Char) (d : Str), VC_END_TOKEN ∉ unfold e d →
      vCard.fromByteArray codec e d = [] := by
    intro e d h
    rw [fromByteArray_eq_foldl, foldl_dispatch_vcards codec _ _ h]
    rfl
  refine ⟨?_, hnoend eol, hnoend '\n' _ (by decide)⟩
  intro d t hf hend
  rw [fromByteArray_eq_foldl, fromByteArray_eq_foldl,
    unfold_append eol d t (firstLine_of_not_continues eol t hf), List.foldl_append,
    foldl_dispatch_vcards codec _ _ hend]

/-- A complete card followed by a card that is never closed: only the first
card is returned. -/
theorem unterminated_card_dropped_witness :
    vCard.fromByteArray specCodec '\n'
        ("BEGIN:VCARD\nFN:A\nEND:VCARD".toList ++ '\n' :: "BEGIN:VCARD\nFN:X".toList) =
      vCard.fromByteArray specCodec '\n' "BEGIN:VCARD\nFN:A\nEND:VCARD".toList ∧
    vCard.fromByteArray specCodec '\n' "FN:A\nBEGIN:VCARD\nFN:X".toList = [] :=
  ⟨(unterminated_card_dropped specCodec '\n').1 "BEGIN:VCARD\nFN:A\nEND:VCARD".toList
      "BEGIN:VCARD\nFN:X".toList (by decide) (by decide),
   (unterminated_card_dropped specCodec '\n').2.1 "FN:A\nBEGIN:VCARD\nFN:X".toList (by decide)⟩

/-! ## Round trip (C1) -/

theorem addProperties_append (c : vCard) (a b : List vCardProperty) :
    c.addProperties (a ++ b) = (c.addProperties a).addProperties b := by
  simp [vCard.addProperties, List.foldl_append]

theorem foldl_dispatch_body (codec : PropertyCodec) :
    ∀ (ls : List Str) (vs : List vCard) (cur : vCard), (∀ l ∈ ls, l ≠ VC_END_TOKEN) →
      ls.foldl (dispatch codec) ⟨vs, cur, true⟩ =
        ⟨vs, cur.addProperties (ls.map codec.fromByteArray).flatten, true⟩ := by
  intro ls
  induction ls with
  | nil => intro vs cur _; rfl
  | cons l ls ih =>
    intro vs cur h
    have hl : l ≠ VC_END_TOKEN := h l (List.mem_cons_self _ _)
    have hstep : dispatch codec ⟨vs, cur, true⟩ l =
        ⟨vs, cur.addProperties (codec.fromByteArray l), true⟩ := by
      simp [dispatch, hl]
    rw [List.foldl_cons, hstep, ih _ _ (fun x hx => h x (List.mem_cons_of_mem _ hx))]
    simp [addProperties_append]

theorem flatten_map_singleton (codec : PropertyCodec) (version : vCardVersion) :
    ∀ ps : List vCardProperty,
      (∀ p ∈ ps, codec.fromByteArray (simplified (codec.toByteArray version p)) = [p]) →
      (((ps.map (fun property => codec.toByteArray version property)).map simplified).map
        codec.fromByteArray).flatten = ps := by
  intro ps
  induction ps with
  | nil => intro _; rfl
  | cons p ps ih =>
    intro h
    simp only [List.map_cons, List.flatten_cons]
    rw [h p (List.mem_cons_self _ _), ih (fun x hx => h x (List.mem_cons_of_mem _ hx))]
    rfl

/-- C1, as the code has it. For a supported version, when no encoded line holds
the line terminator, neither the version line nor an encoded property line
starts with a space or simplifies to `END:VCARD`, and every stored property is
what the Property decoder returns for its simplified encoded line, decoding the
encoding of a card gives exactly one card: the properties of the card merged by
`addProperties` into the card that holds what the Property decoder returns for
the version line (the empty card when it returns nothing). -/
theorem decode_encode_roundtrip (codec : PropertyCodec) (eol : Char) (c : vCard)
    (version : vCardVersion) (line : Str)
    (hv : versionLine codec version = some line)
    (heol : ∀ l ∈ encodedLines codec c version line, eol ∉ l)
    (hsp : ∀ l ∈ line :: c.m_properties.map (fun property => codec.toByteArray version property),
      startsWith l ' ' = false)
    (hend : ∀ l ∈ line :: c.m_properties.map (fun property => codec.toByteArray version property),
      simplified l ≠ VC_END_TOKEN)
    (hdec : ∀ p ∈ c.m_properties,
      codec.fromByteArray (simplified (codec.toByteArray version p)) = [p]) :
    vCard.fromByteArray codec eol (c.toByteArray codec eol version) =
      [(vCard.new.addProperties (codec.fromByteArray (simplified line))).addProperties
        c.m_properties] := by
  have henc : c.toByteArray codec eol version =
      joinLines eol (encodedLines codec c version line) := by
    simp [vCard.toByteArray, hv]
  have hlines : encodedLines codec c version line =
      VC_BEGIN_TOKEN ::
        ((line :: c.m_properties.map (fun property => codec.toByteArray version property))
          ++ [VC_END_TOKEN]) := by
    simp [encodedLines, vCard.properties]
  have hsplit : split eol (joinLines eol (encodedLines codec c version line)) =
      encodedLines codec c version line :=
    split_joinLines eol _ (by rw [hlines]; simp) heol
  have hall : ∀ l ∈ encodedLines codec c version line, startsWith l ' ' = false := by
    intro l hl
    rw [hlines] at hl
    rcases List.mem_cons.1 hl with h | h
    · rw [h]; decide
    · rcases List.mem_append.1 h with h | h
      · exact hsp l h
      · rw [List.mem_singleton.1 h]; decide
  have hb : simplified VC_BEGIN_TOKEN = VC_BEGIN_TOKEN := by decide
  have he : simplified VC_END_TOKEN = VC_END_TOKEN := by decide
  have hunf : unfold eol (c.toByteArray codec eol version) =
      VC_BEGIN_TOKEN ::
        (((line :: c.m_properties.map (fun property => codec.toByteArray version property)).map
          simplified) ++ [VC_END_TOKEN]) := by
    rw [unfold, henc, hsplit, logicalLines_unfolded _ _ hall, hlines]
    simp [hb, he]
  have hbody : ∀ l ∈ (line :: c.m_properties.map
      (fun property => codec.toByteArray version property)).map simplified,
      l ≠ VC_END_TOKEN := by
    intro l hl
    obtain ⟨x, hx, rfl⟩ := List.mem_map.1 hl
    exact hend x hx
  have hstart : dispatch codec initialState.1 VC_BEGIN_TOKEN = ⟨[], vCard.new, true⟩ := by
    simp [dispatch, initialState]
  rw [fromByteArray_eq_foldl, hunf, List.foldl_cons, hstart, List.foldl_append,
    foldl_dispatch_body codec _ _ _ hbody]
  simp only [List.map_cons, List.flatten_cons, flatten_map_singleton codec version _ hdec,
    addProperties_append]
  simp [dispatch]

/-- The round trip on a card with a name, two telephone numbers that differ in
their parameter and a structured address, with the codec written after the
specification. -/
theorem decode_encode_roundtrip_witness :
    vCard.fromByteArray specCodec '\n'
      ((vCard.mk [⟨"FN".toList, [], ["John Smith".toList]⟩,
          ⟨"TEL".toList, [⟨"TYPE".toList, "HOME".toList⟩], ["1".toList, "2".toList]⟩,
          ⟨"TEL".toList, [⟨"PREF".toList, []⟩], ["3".toList]⟩,
          ⟨"ADR".toList, [], ["Main St".toList, "Town".toList]⟩]).toByteArray
        specCodec '\n' vCardVersion.VC_VER_3_0) =
      [(vCard.new.addProperties
          (specCodec.fromByteArray (simplified "VERSION:3.0".toList))).addProperties
        [⟨"FN".toList, [], ["John Smith".toList]⟩,
          ⟨"TEL".toList, [⟨"TYPE".toList, "HOME".toList⟩], ["1".toList, "2".toList]⟩,
          ⟨"TEL".toList, [⟨"PREF".toList, []⟩], ["3".toList]⟩,
          ⟨"ADR".toList, [], ["Main St".toList, "Town".toList]⟩]] :=
  decode_encode_roundtrip specCodec '\n'
    (vCard.mk [⟨"FN".toList, [], ["John Smith".toList]⟩,
      ⟨"TEL".toList, [⟨"TYPE".toList, "HOME".toList⟩], ["1".toList, "2".toList]⟩,
      ⟨"TEL".toList, [⟨"PREF".toList, []⟩], ["3".toList]⟩,
      ⟨"ADR".toList, [], ["Main St".toList, "Town".toList]⟩])
    vCardVersion.VC_VER_3_0 "VERSION:3.0".toList
    (by decide) (by decide) (by decide) (by decide) (by decide)

/-- C1 as stated fails: a card whose only property is `FN` with the value
`A`, two spaces, `B` is built from a valid property, yet decoding its encoding
does not give the card back; the decoder simplifies every raw line, so the
decoded `FN` holds `A`, one space, `B`. -/
theorem roundtrip_loses_double_space_counterexample :
    vCard.fromByteArray specCodec '\n'
        ((vCard.mk [⟨"FN".toList, [], ["A  B".toList]⟩]).toByteArray specCodec '\n'
          vCardVersion.VC_VER_3_0) ≠
      [vCard.new.addProperties [⟨"FN".toList, [], ["A  B".toList]⟩]] ∧
    (vCard.fromByteArray specCodec '\n'
        ((vCard.mk [⟨"FN".toList, [], ["A  B".toList]⟩]).toByteArray specCodec '\n'
          vCardVersion.VC_VER_3_0)).map
      (fun c => (c.property "FN".toList [] true).values) = [["A B".toList]] := by
  decide

/-! ## removeProperties (C11) -/

theorem removePropertiesLoop_step (name : Str) (pre suf : List vCardProperty)
    (x : vCardProperty) :
    removePropertiesLoop name (pre.length + 1) (pre ++ x :: suf) =
      if x.name = name then removePropertiesLoop name pre.length (pre ++ suf)
      else removePropertiesLoop name pre.length (pre ++ x :: suf) := by
  have hget : (pre ++ x :: suf).get? pre.length = some x := by
    rw [List.get?_eq_getElem?, List.getElem?_append_right (Nat.le_refl _)]
    simp
  have herase : (pre ++ x :: suf).eraseIdx pre.length = pre ++ suf := by
    rw [List.eraseIdx_append_of_length_le (Nat.le_refl _)]
    simp
  rw [removePropertiesLoop, hget]
  simp only [herase]

theorem removePropertiesLoop_append (name : Str) :
    ∀ (pre suf : List vCardProperty),
      removePropertiesLoop name pre.length (pre ++ suf) =
        pre.filter (fun p => decide (p.name ≠ name)) ++ suf := by
  intro pre
  induction pre using List.reverseRecOn with
  | nil => intro suf; rfl
  | append_singleton pre x ih =>
    intro suf
    have hlen : (pre ++ [x]).length = pre.length + 1 := by simp
    have happ : pre ++ [x] ++ suf = pre ++ x :: suf := by simp
    rw [hlen, happ, removePropertiesLoop_step, List.filter_append]
    by_cases hx : x.name = name
    · simp [hx, ih]
    · simp [hx, ih]

/-- C11. After `removeProperties(name)` the stored list is the original list
without the properties named `name`, the others in their original relative
order: the reverse index loop computes the filter on `name != given name`. -/
theorem removeProperties_eq_filter (c : vCard) (name : Str) :
    (c.removeProperties name).m_properties =
      c.m_properties.filter (fun p => decide (p.name ≠ name)) := by
  have e := removePropertiesLoop_append name c.m_properties []
  simp only [List.append_nil] at e
  exact e

/-! ## Idempotence of addProperty (C19) -/

theorem addPropertyTo_idem (p : vCardProperty) :
    ∀ l : List vCardProperty, addPropertyTo p (addPropertyTo p l) = addPropertyTo p l := by
  intro l
  induction l with
  | nil => simp [addPropertyTo]
  | cons cur rest ih =>
    by_cases hc : cur.name = p.name ∧ cur.params = p.params
    · simp [addPropertyTo, hc]
    · simp [addPropertyTo, hc, ih]

/-- C19. On every card, also one built by the list constructor from a list that
holds the same name and parameter list twice, `addProperty(p)` followed by
`addProperty(p)` leaves the stored list that a single `addProperty(p)` leaves;
on the card `[TEL 1, TEL 2]` both give `[TEL 3, TEL 2]`. -/
theorem addProperty_idempotent (c : vCard) (p : vCardProperty) :
    ((c.addProperty p).addProperty p).m_properties = (c.addProperty p).m_properties ∧
    (((vCard.mk [⟨"TEL".toList, [], ["1".toList]⟩, ⟨"TEL".toList, [], ["2".toList]⟩]).addProperty
        ⟨"TEL".toList, [], ["3".toList]⟩).addProperty
        ⟨"TEL".toList, [], ["3".toList]⟩).m_properties =
      [⟨"TEL".toList, [], ["3".toList]⟩, ⟨"TEL".toList, [], ["2".toList]⟩] ∧
    ((vCard.mk [⟨"TEL".toList, [], ["1".toList]⟩, ⟨"TEL".toList, [], ["2".toList]⟩]).addProperty
        ⟨"TEL".toList, [], ["3".toList]⟩).m_properties =
      [⟨"TEL".toList, [], ["3".toList]⟩, ⟨"TEL".toList, [], ["2".toList]⟩] :=
  ⟨addPropertyTo_idem p c.m_properties, by decide, by decide⟩

/-! ## Non-strict lookup as the code has it (C18) and `contains` (C14) -/

theorem property_nonstrict_eq_find (name : Str) (params : List vCardParam) :
    ∀ l : List vCardProperty,
      propertyIn name params false l =
        (l.find? (fun q => decide (q.name = name))).getD vCardProperty.empty := by
  intro l
  induction l with
  | nil => rfl
  | cons cur rest ih =>
    by_cases hn : cur.name = name
    · simp [propertyIn, hn, List.find?_cons]
    · simp [propertyIn, hn, List.find?_cons, ih]

theorem contains_nonstrict_eq_any (name : Str) (params : List vCardParam) :
    ∀ l : List vCardProperty,
      containsIn name params false l = l.any (fun q => decide (q.name = name)) := by
  intro l
  induction l with
  | nil => rfl
  | cons cur rest ih =>
    by_cases hn : cur.name = name
    · simp [containsIn, hn]
    · simp [containsIn, hn, ih]

/-- C18. With `strict = false` the requested parameters play no part:
`property(name, params)` is the first stored property named `name` (the
sentinel when there is none), the same result as with an empty parameter list,
and `contains(name, params)` is true exactly when some stored property is named
`name`. -/
theorem nonstrict_lookup_ignores_params (c : vCard) (name : Str) (params : List vCardParam) :
    c.property name params false =
        (c.m_properties.find? (fun q => decide (q.name = name))).getD vCardProperty.empty ∧
    c.property name params false = c.property name [] false ∧
    (c.contains name params false = true ↔ ∃ q ∈ c.m_properties, q.name = name) := by
  refine ⟨property_nonstrict_eq_find name params _, ?_, ?_⟩
  · rw [vCard.property, vCard.property, property_nonstrict_eq_find,
      property_nonstrict_eq_find]
  · rw [vCard.contains, contains_nonstrict_eq_any, List.any_eq_true]
    simp

theorem contains_iff_property_named (name : Str) (hname : name ≠ []) (params : List vCardParam)
    (strict : Bool) :
    ∀ l : List vCardProperty,
      containsIn name params strict l = true ↔ (propertyIn name params strict l).name ≠ [] := by
  intro l
  induction l with
  | nil => simp [containsIn, propertyIn, vCardProperty.empty]
  | cons cur rest ih =>
    by_cases hn : cur.name = name
    · cases strict with
      | false => simp [containsIn, propertyIn, hn, hname]
      | true =>
        by_cases hp : params = cur.params
        · simp [containsIn, propertyIn, hn, hp, hname]
        · simpa [containsIn, propertyIn, hn, hp] using ih
    · simpa [containsIn, propertyIn, hn] using ih

/-- C14. For a non-empty name, every parameter list and both values of `strict`,
`contains(name, params, strict)` is true exactly when
`property(name, params, strict)` returns a property with a non-empty name. -/
theorem contains_iff_property_found (c : vCard) (name : Str) (params : List vCardParam)
    (strict : Bool) (hname : name ≠ []) :
    c.contains name params strict = true ↔ (c.property name params strict).name ≠ [] :=
  contains_iff_property_named name hname params strict c.m_properties

/-- The strict lookup of `TEL;TYPE=HOME` on a card that holds it. -/
theorem contains_iff_property_found_witness :
    (vCard.mk [⟨"FN".toList, [], ["A".toList]⟩,
        ⟨"TEL".toList, [⟨"TYPE".toList, "HOME".toList⟩], ["1".toList]⟩]).contains
      "TEL".toList [⟨"TYPE".toList, "HOME".toList⟩] true = true ↔
    ((vCard.mk [⟨"FN".toList, [], ["A".toList]⟩,
        ⟨"TEL".toList, [⟨"TYPE".toList, "HOME".toList⟩], ["1".toList]⟩]).property
      "TEL".toList [⟨"TYPE".toList, "HOME".toList⟩] true).name ≠ [] :=
  contains_iff_property_found _ "TEL".toList [⟨"TYPE".toList, "HOME".toList⟩] true (by decide)

/-! ## Validity of a card (C15) -/

/-- C15. `isValid()` is true exactly when the card stores at least one property
and every stored property has a non-empty name; the empty card and the card
holding one empty-name property are invalid, a card holding one named property
is valid. -/
theorem isValid_iff_nonempty_and_named (c : vCard) :
    (c.isValid = true ↔ (c.m_properties ≠ [] ∧ ∀ p ∈ c.m_properties, p.name ≠ [])) ∧
    vCard.new.isValid = false ∧
    (vCard.mk [vCardProperty.empty]).isValid = false ∧
    (vCard.mk [⟨"FN".toList, [], ["A".toList]⟩]).isValid = true := by
  refine ⟨?_, by decide, by decide, by decide⟩
  cases hm : c.m_properties with
  | nil => simp [vCard.isValid, hm]
  | cons a rest =>
    simp [vCard.isValid, hm, vCardProperty.isValid, List.isEmpty_eq_true]

/-! ## The encoder (C12, C13) -/

theorem joinLines_cons_cons (sep : Char) (a b : Str) (r : List Str) :
    joinLines sep (a :: b :: r) = a ++ sep :: joinLines sep (b :: r) := rfl

theorem joinLines_suffix (sep : Char) (last : Str) :
    ∀ ls : List Str, ∃ before : Str, joinLines sep (ls ++ [last]) = before ++ last := by
  intro ls
  induction ls with
  | nil => exact ⟨[], rfl⟩
  | cons a rest ih =>
    obtain ⟨before, hb⟩ := ih
    cases hr : rest ++ [last] with
    | nil => simp at hr
    | cons b r =>
      rw [hr] at hb
      refine ⟨a ++ sep :: before, ?_⟩
      rw [List.cons_append, hr, joinLines_cons_cons, hb]
      simp

/-- C12. For a supported version the encoding of a card with `n` stored
properties is `n + 3` lines joined by the line terminator, none after the last:
`BEGIN:VCARD`, the version line (the Property encoding of `VERSION` with the
value `2.1` or `3.0`), the encoded stored properties in stored order, and
`END:VCARD`, with which the output ends; when no line holds the terminator,
splitting the output at the terminator gives these lines back. -/
theorem toByteArray_lines (codec : PropertyCodec) (eol : Char) (c : vCard)
    (version : vCardVersion) (line : Str) (hv : versionLine codec version = some line) :
    c.toByteArray codec eol version =
        joinLines eol (VC_BEGIN_TOKEN :: line ::
          (c.m_properties.map (fun property => codec.toByteArray version property)
            ++ [VC_END_TOKEN])) ∧
    (VC_BEGIN_TOKEN :: line ::
        (c.m_properties.map (fun property => codec.toByteArray version property)
          ++ [VC_END_TOKEN])).length = c.count + 3 ∧
    (∃ before : Str, c.toByteArray codec eol version = before ++ VC_END_TOKEN) ∧
    ((∀ l ∈ VC_BEGIN_TOKEN :: line ::
          (c.m_properties.map (fun property => codec.toByteArray version property)
            ++ [VC_END_TOKEN]), eol ∉ l) →
      split eol (c.toByteArray codec eol version) =
        VC_BEGIN_TOKEN :: line ::
          (c.m_properties.map (fun property => codec.toByteArray version property)
            ++ [VC_END_TOKEN])) ∧
    versionLine codec vCardVersion.VC_VER_2_1 =
      some (codec.toByteArrayDefault (vCardProperty.ofValue VC_VERSION "2.1".toList)) ∧
    versionLine codec vCardVersion.VC_VER_3_0 =
      some (codec.toByteArrayDefault (vCardProperty.ofValue VC_VERSION "3.0".toList)) := by
  have henc : c.toByteArray codec eol version =
      joinLines eol (VC_BEGIN_TOKEN :: line ::
        (c.m_properties.map (fun property => codec.toByteArray version property)
          ++ [VC_END_TOKEN])) := by
    simp [vCard.toByteArray, hv, encodedLines, vCard.properties]
  refine ⟨henc, by simp [vCard.count], ?_, ?_, rfl, rfl⟩
  · have hs := joinLines_suffix eol VC_END_TOKEN
      (VC_BEGIN_TOKEN :: line ::
        c.m_properties.map (fun property => codec.toByteArray version property))
    rw [henc]
    simpa using hs
  · intro hno
    rw [henc]
    exact split_joinLines eol _ (by simp) hno

/-- The encoding of a card with two properties for version 3.0, with the codec
written after the specification: five lines. -/
theorem toByteArray_lines_witness :
    (vCard.mk [⟨"FN".toList, [], ["A".toList]⟩,
        ⟨"TEL".toList, [⟨"TYPE".toList, "HOME".toList⟩], ["1".toList]⟩]).toByteArray
      specCodec '\n' vCardVersion.VC_VER_3_0 =
      "BEGIN:VCARD\nVERSION:3.0\nFN:A\nTEL;TYPE=HOME:1\nEND:VCARD".toList :=
  (toByteArray_lines specCodec '\n'
    (vCard.mk [⟨"FN".toList, [], ["A".toList]⟩,
      ⟨"TEL".toList, [⟨"TYPE".toList, "HOME".toList⟩], ["1".toList]⟩])
    vCardVersion.VC_VER_3_0 "VERSION:3.0".toList (by decide)).1.trans (by decide)

/-- C13. The encoding of a card, the empty card included, is empty exactly when
the version is neither 2.1 nor 3.0. -/
theorem toByteArray_empty_iff_unsupported (codec : PropertyCodec) (eol : Char) (c : vCard)
    (version : vCardVersion) :
    c.toByteArray codec eol version = [] ↔
      (version ≠ vCardVersion.VC_VER_2_1 ∧ version ≠ vCardVersion.VC_VER_3_0) := by
  have hne : ∀ line : Str, joinLines eol (encodedLines codec c version line) ≠ [] := by
    intro line
    have e : encodedLines codec c version line =
        VC_BEGIN_TOKEN :: line ::
          (c.m_properties.map (fun property => codec.toByteArray version property)
            ++ [VC_END_TOKEN]) := by
      simp [encodedLines, vCard.properties]
    rw [e, joinLines_cons_cons]
    simp
  cases version with
  | VC_VER_2_1 => simpa [vCard.toByteArray, versionLine] using hne _
  | VC_VER_3_0 => simpa [vCard.toByteArray, versionLine] using hne _
  | VC_VER_UNKNOWN => simp [vCard.toByteArray, versionLine]

/-! ## Lines outside a card (C17) -/

theorem foldl_dispatch_outside (codec : PropertyCodec) :
    ∀ (ls : List Str) (vs : List vCard) (cur : vCard), VC_BEGIN_TOKEN ∉ ls →
      ls.foldl (dispatch codec) ⟨vs, cur, false⟩ = ⟨vs, cur, false⟩ := by
  intro ls
  induction ls with
  | nil => intro vs cur _; rfl
  | cons l ls ih =>
    intro vs cur h
    have hl : l ≠ VC_BEGIN_TOKEN := fun e => h (by simp [e])
    have hls : VC_BEGIN_TOKEN ∉ ls := fun e => h (List.mem_cons_of_mem _ e)
    have hstep : dispatch codec ⟨vs, cur, false⟩ l = ⟨vs, cur, false⟩ := by
      simp [dispatch, hl]
    rw [List.foldl_cons, hstep, ih vs cur hls]

/-- C17. A prefix none of whose logical lines is `BEGIN:VCARD`, placed before an
input whose first raw line does not start with a space, changes nothing: the
whole decodes to the cards of that input. -/
theorem lines_outside_card_discarded (codec : PropertyCodec) (eol : Char) (j d : Str)
    (hj : VC_BEGIN_TOKEN ∉ unfold eol j) (hd : firstLineContinues eol d = false) :
    vCard.fromByteArray codec eol (j ++ eol :: d) = vCard.fromByteArray codec eol d := by
  rw [fromByteArray_eq_foldl, fromByteArray_eq_foldl,
    unfold_append eol j d (firstLine_of_not_continues eol d hd), List.foldl_append]
  have e : (unfold eol j).foldl (dispatch codec) initialState.1 = initialState.1 :=
    foldl_dispatch_outside codec _ _ _ hj
  rw [e]

/-- Two stray lines, one of them `END:VCARD`, before a complete card. -/
theorem lines_outside_card_discarded_witness :
    vCard.fromByteArray specCodec '\n'
        ("NOTE:stray\r\nEND:VCARD\r".toList ++ '\n' :: "BEGIN:VCARD\r\nFN:A\r\nEND:VCARD".toList) =
      vCard.fromByteArray specCodec '\n' "BEGIN:VCARD\r\nFN:A\r\nEND:VCARD".toList :=
  lines_outside_card_discarded specCodec '\n' "NOTE:stray\r\nEND:VCARD\r".toList
    "BEGIN:VCARD\r\nFN:A\r\nEND:VCARD".toList (by decide) (by decide)

/-! ## Continuation lines that start with a tab (C16) -/

/-- C16 fails on the code. A raw line that starts with a tab is not taken as a
continuation: `FN:John`, line end, tab, `Smith` gives the two logical lines
`FN:John` and `Smith`, where the same input with a space in place of the tab
gives the single line `FN:JohnSmith`; inside a card the decoded `FN` is `John`. -/
theorem tab_line_starts_new_logical_line :
    unfold '\n' "FN:John\r\n\tSmith".toList = ["FN:John".toList, "Smith".toList] ∧
    unfold '\n' "FN:John\r\n Smith".toList = ["FN:JohnSmith".toList] ∧
    (vCard.fromByteArray specCodec '\n'
        "BEGIN:VCARD\r\nFN:John\r\n\tSmith\r\nEND:VCARD".toList).map
      (fun c => (c.property "FN".toList [] true).values) = [["John".toList]] := by
  decide

/-! ## Whitespace normalisation by the decoder (C20) -/

end LibVCard
